import Mathlib

/-!
# The boolean-expression scanner of MCDC (`Source/scanner.cpp`)

A shallow embedding of `Scanner::getNextToken` and theorems about it.

* The source text is a `std::string`; it is modelled as a `List Nat`, one entry per
  character, each entry being the value of the character as an `unsigned char`
  (the value the code passes to `isspace`, `islower`, `isupper`).
* The iterator `currentElement` is modelled as an index into that list; the
  iterator `sourceCode.end()` is the index `sourceCode.length`.
* Reading a character through an iterator that does not point into the buffer is
  undefined behaviour in C++; the embedding makes it the explicit result
  `ScanError.outOfBounds`.
-/

namespace MCDC

/-! ## Character classification (`<cctype>`, "C" locale) -/

/-- The `isspace` of `<cctype>` in the "C" locale: space, `\t`, `\n`, `\v`, `\f`, `\r`. -/
def isspace (c : Nat) : Bool :=
  c == 32 || (9 ≤ c && c ≤ 13)

/-- The `islower` of `<cctype>` in the "C" locale: `'a'` (97) to `'z'` (122). -/
def islower (c : Nat) : Bool :=
  97 ≤ c && c ≤ 122

/-- The `isupper` of `<cctype>` in the "C" locale: `'A'` (65) to `'Z'` (90). -/
def isupper (c : Nat) : Bool :=
  65 ≤ c && c ≤ 90

/-! ## Data model -/

/-- Modelled from the spec: the enumeration `Token` is declared in `scanner.hpp`, which is
not among the sources; the spec lists its variants. -/
inductive Token where
  | NONE
  | END
  | ID
  | OR
  | XOR
  | AND
  | NOT
  | BOPEN
  | BCLOSE
  deriving DecidableEq, Repr

/-- Modelled from the spec: `null<cchar>()` is declared in `scanner.hpp`, which is not among
the sources; the spec calls it the sentinel "none" value of the source symbol. It is taken
to be the zero character. -/
def null_cchar : Nat := 0

/-- The record `TokenWithAttribute` returned by `getNextToken`, with the three fields the
code assigns. -/
structure TokenWithAttribute where
  token : Token
  inputTerminalSymbol : Nat
  sourceIndex : Nat
  deriving DecidableEq, Repr

/-- The state of a `Scanner`: the source string and the cursor into it. -/
structure Scanner where
  sourceCode : List Nat
  currentElement : Nat
  deriving DecidableEq, Repr

/-- The ways the embedding can fail to produce a token. -/
inductive ScanError where
  -- a character was read at an index that is not inside the buffer
  | outOfBounds
  -- the iteration bound of a loop was used up
  | outOfFuel
  deriving DecidableEq, Repr

deriving instance DecidableEq for Except

/-! ## `Scanner::getNextToken` -/

/-- The loop `while ((sourceCode.end() != currentElement) && isspace(*currentElement))
++currentElement;` of `getNextToken`. The first argument bounds the number of evaluations
of the loop condition. -/
def eatWhiteSpace (sourceCode : List Nat) : Nat → Nat → Except ScanError Nat
  | 0, _ => .error .outOfFuel
  | fuel + 1, currentElement =>
    if sourceCode.length ≠ currentElement then
      match sourceCode[currentElement]? with
      | none => .error .outOfBounds
      | some c =>
        if isspace c then eatWhiteSpace sourceCode fuel (currentElement + 1)
        else .ok currentElement
    else .ok currentElement

/-- The check for a double operator in `case '|'` and `case '&'`:
`if ((sourceCode.end() != (currentElement + 1)) && (*(currentElement + 1) == op))
++currentElement;`. The result is the cursor after the statement. -/
def doubleOperator (sourceCode : List Nat) (currentElement op : Nat) : Except ScanError Nat :=
  if sourceCode.length ≠ currentElement + 1 then
    match sourceCode[currentElement + 1]? with
    | none => .error .outOfBounds
    | some d => if d = op then .ok (currentElement + 1) else .ok currentElement
  else .ok currentElement

/-- The function `Scanner::getNextToken`: the token found and the scanner afterwards. The
whitespace loop gets `length - cursor + 1` evaluations of its condition, which is one more
than the number of characters left. Characters are written as their codes: `'a'` is 97,
`'A'` is 65, `'|'` 124, `'+'` 43, `'^'` 94, `'&'` 38, `'*'` 42, `'!'` 33, `'~'` 126,
`'('` 40, `')'` 41. In the letter branches the difference to `'a'` or `'A'` is not
negative. -/
def getNextToken (s : Scanner) : Except ScanError (TokenWithAttribute × Scanner) :=
  match eatWhiteSpace s.sourceCode (s.sourceCode.length - s.currentElement + 1)
      s.currentElement with
  | .error e => .error e
  | .ok cur =>
    if cur = s.sourceCode.length then
      .ok (⟨Token.END, null_cchar, 0⟩, { s with currentElement := cur })
    else
      match s.sourceCode[cur]? with
      | none => .error .outOfBounds
      | some c =>
        if islower c then
          .ok (⟨Token.ID, c, c - 97⟩, { s with currentElement := cur + 1 })
        else if isupper c then
          .ok (⟨Token.ID, c, c - 65 + 26⟩, { s with currentElement := cur + 1 })
        else if c = 124 then
          match doubleOperator s.sourceCode cur 124 with
          | .error e => .error e
          | .ok cur1 => .ok (⟨Token.OR, c, 0⟩, { s with currentElement := cur1 + 1 })
        else if c = 43 then
          .ok (⟨Token.OR, c, 0⟩, { s with currentElement := cur + 1 })
        else if c = 94 then
          .ok (⟨Token.XOR, c, 0⟩, { s with currentElement := cur + 1 })
        else if c = 38 then
          match doubleOperator s.sourceCode cur 38 with
          | .error e => .error e
          | .ok cur1 => .ok (⟨Token.AND, c, 0⟩, { s with currentElement := cur1 + 1 })
        else if c = 42 then
          .ok (⟨Token.AND, c, 0⟩, { s with currentElement := cur + 1 })
        else if c = 33 ∨ c = 126 then
          .ok (⟨Token.NOT, c, 0⟩, { s with currentElement := cur + 1 })
        else if c = 40 then
          .ok (⟨Token.BOPEN, c, 0⟩, { s with currentElement := cur + 1 })
        else if c = 41 then
          .ok (⟨Token.BCLOSE, c, 0⟩, { s with currentElement := cur + 1 })
        else
          .ok (⟨Token.NONE, c, 0⟩, { s with currentElement := cur + 1 })

/-! ## Callers: repeated calls -/

/-- The characters of an ASCII string literal as character codes. -/
def ofAscii (str : String) : List Nat :=
  str.toList.map Char.toNat

/-- A scanner as constructed: the cursor is at the beginning of the source. -/
def Scanner.init (sourceCode : List Nat) : Scanner :=
  ⟨sourceCode, 0⟩

/-- Call number `n + 1` of `getNextToken`, starting in state `s`: the token it returns and
the scanner after it. -/
def getNextTokenN : Nat → Scanner → Except ScanError (TokenWithAttribute × Scanner)
  | 0, s => getNextToken s
  | n + 1, s =>
    match getNextToken s with
    | .error e => .error e
    | .ok (_, s1) => getNextTokenN n s1

/-- The loop of a caller: call `getNextToken` until it returns `END`, at most `fuel` times,
and collect the tokens returned, `END` included. -/
def scanTokens : Nat → Scanner → Except ScanError (List TokenWithAttribute)
  | 0, _ => .error .outOfFuel
  | fuel + 1, s =>
    match getNextToken s with
    | .error e => .error e
    | .ok (t, s1) =>
      if t.token = Token.END then .ok [t]
      else
        match scanTokens fuel s1 with
        | .error e => .error e
        | .ok ts => .ok (t :: ts)

/-- Scan a whole source from cursor 0 to `END`; `length + 1` calls are allowed. -/
def scan (sourceCode : List Nat) : Except ScanError (List TokenWithAttribute) :=
  scanTokens (sourceCode.length + 1) (Scanner.init sourceCode)

/-! ## Vocabulary of the specification -/

/-- The character at index `i` of the source exists and is whitespace. -/
def spaceAt (sourceCode : List Nat) (i : Nat) : Bool :=
  match sourceCode[i]? with
  | some c => isspace c
  | none => false

/-- The first non-whitespace character at or after the cursor `cur` is `c`, at index `p`. -/
def FirstNonSpace (sourceCode : List Nat) (cur p c : Nat) : Prop :=
  cur ≤ p ∧ sourceCode[p]? = some c ∧ isspace c = false ∧
    ∀ i, i < p → cur ≤ i → spaceAt sourceCode i = true

/-- Every character from the cursor `cur` to the end of the buffer is whitespace. -/
def AllSpaceFrom (sourceCode : List Nat) (cur : Nat) : Prop :=
  ∀ i, i < sourceCode.length → cur ≤ i → spaceAt sourceCode i = true

instance (sourceCode : List Nat) (cur p c : Nat) : Decidable (FirstNonSpace sourceCode cur p c) :=
  inferInstanceAs (Decidable (_ ∧ _))

instance (sourceCode : List Nat) (cur : Nat) : Decidable (AllSpaceFrom sourceCode cur) :=
  inferInstanceAs (Decidable (∀ i, i < _ → _))

/-- The kind the specification gives for each operator and bracket character: `|` and `+`
are OR, `^` is XOR, `&` and `*` are AND, `!` and `~` are NOT, `(` is BOPEN, `)` is BCLOSE;
no kind for any other character. -/
def operatorKind (c : Nat) : Option Token :=
  if c = '|'.toNat ∨ c = '+'.toNat then some Token.OR
  else if c = '^'.toNat then some Token.XOR
  else if c = '&'.toNat ∨ c = '*'.toNat then some Token.AND
  else if c = '!'.toNat ∨ c = '~'.toNat then some Token.NOT
  else if c = '('.toNat then some Token.BOPEN
  else if c = ')'.toNat then some Token.BCLOSE
  else none

/-- The character `c` is a lowercase ASCII letter, `a` to `z`. -/
def IsLowercase (c : Nat) : Prop :=
  'a'.toNat ≤ c ∧ c ≤ 'z'.toNat

/-- The character `c` is an uppercase ASCII letter, `A` to `Z`. -/
def IsUppercase (c : Nat) : Prop :=
  'A'.toNat ≤ c ∧ c ≤ 'Z'.toNat

instance (c : Nat) : Decidable (IsLowercase c) := inferInstanceAs (Decidable (_ ∧ _))

instance (c : Nat) : Decidable (IsUppercase c) := inferInstanceAs (Decidable (_ ∧ _))

/-- The cursor after a token whose first character `c` is at index `p`: two past `p` for a
doubled `|` or `&`, one past `p` otherwise. -/
def cursorAfter (sourceCode : List Nat) (p c : Nat) : Nat :=
  if (c = '|'.toNat ∨ c = '&'.toNat) ∧ sourceCode[p + 1]? = some c then p + 2 else p + 1

/-- The token the specification gives for a non-whitespace character `c`: ID with index
`c - 'a'` for a lowercase letter, ID with index `26 + (c - 'A')` for an uppercase letter,
the operator or bracket kind with index 0 for an operator or bracket character, and NONE
with index 0 for anything else; the source symbol is `c` in every case. -/
def symbolToken (c : Nat) : TokenWithAttribute :=
  if IsLowercase c then ⟨Token.ID, c, c - 'a'.toNat⟩
  else if IsUppercase c then ⟨Token.ID, c, 26 + (c - 'A'.toNat)⟩
  else
    match operatorKind c with
    | some k => ⟨k, c, 0⟩
    | none => ⟨Token.NONE, c, 0⟩

/-- The tokens of a character list as the specification describes them, without a cursor:
whitespace is skipped, a `|` or `&` directly followed by the same character is one token
with it, and every other non-whitespace character is a token of its own. `END` is not
part of the list. -/
def lex : List Nat → List TokenWithAttribute
  | [] => []
  | [c] => if isspace c then [] else [symbolToken c]
  | c :: d :: rest =>
    if isspace c then lex (d :: rest)
    else if (c = '|'.toNat ∨ c = '&'.toNat) ∧ d = c then symbolToken c :: lex rest
    else symbolToken c :: lex (d :: rest)

/-- The tokens returned before `END` when a source is scanned from cursor 0. -/
def tokens (sourceCode : List Nat) : Except ScanError (List TokenWithAttribute) :=
  match scan sourceCode with
  | .error e => .error e
  | .ok ts => .ok ts.dropLast

/-- Some `|` or `&` of the source is followed by one or more whitespace characters and then
by the same character again. -/
def SplitOperator (sourceCode : List Nat) : Prop :=
  ∃ pre w post op, (op = '|'.toNat ∨ op = '&'.toNat) ∧ w ≠ [] ∧
    (∀ x ∈ w, isspace x = true) ∧ sourceCode = pre ++ op :: (w ++ op :: post)

/-- The first non-whitespace character of a character list. -/
def firstNonSpaceChar : List Nat → Option Nat
  | [] => none
  | c :: rest => if isspace c then firstNonSpaceChar rest else some c

/-- A test for `SplitOperator`: some `|` or `&` has a whitespace character right after it
and the same character as the first non-whitespace character after it. -/
def hasSplit : List Nat → Bool
  | [] => false
  | c :: rest =>
    (decide (c = '|'.toNat ∨ c = '&'.toNat) && (rest.head?.map isspace == some true)
      && (firstNonSpaceChar rest == some c)) || hasSplit rest

/-- The source with all whitespace characters removed. -/
def removeWhiteSpace (sourceCode : List Nat) : List Nat :=
  sourceCode.filter (fun c => !isspace c)

/-! ## The whitespace loop -/

theorem spaceAt_lt {src : List Nat} {i : Nat} (h : spaceAt src i = true) : i < src.length := by
  unfold spaceAt at h
  split at h
  · rename_i c hc
    exact (List.getElem?_eq_some_iff.mp hc).1
  · simp at h

theorem eatWhiteSpace_first {src : List Nat} {cur p c : Nat} (h : FirstNonSpace src cur p c) :
    ∀ fuel, p - cur < fuel → eatWhiteSpace src fuel cur = .ok p := by
  obtain ⟨hle, hc, hns, hsp⟩ := h
  have hp : p < src.length := (List.getElem?_eq_some_iff.mp hc).1
  intro fuel
  induction fuel generalizing cur with
  | zero => intro h; omega
  | succ n ih =>
    intro hf
    rw [eatWhiteSpace]
    have hne : src.length ≠ cur := by omega
    rw [if_pos hne]
    rcases Nat.eq_or_lt_of_le hle with heq | hlt
    · subst heq
      simp [hc, hns]
    · have h1 := hsp cur hlt (Nat.le_refl _)
      unfold spaceAt at h1
      split at h1
      · rename_i d hd
        simp only [hd, h1, if_true]
        exact ih (by omega) (fun i hi hci => hsp i hi (by omega)) (by omega)
      · simp at h1

theorem eatWhiteSpace_allSpace {src : List Nat} :
    ∀ fuel cur, cur ≤ src.length → AllSpaceFrom src cur → src.length - cur < fuel →
      eatWhiteSpace src fuel cur = .ok src.length := by
  intro fuel
  induction fuel with
  | zero => intro cur _ _ h; omega
  | succ n ih =>
    intro cur hle hall hf
    rw [eatWhiteSpace]
    rcases Nat.eq_or_lt_of_le hle with heq | hlt
    · simp [heq]
    · have hne : src.length ≠ cur := by omega
      rw [if_pos hne]
      have h1 := hall cur hlt (Nat.le_refl _)
      unfold spaceAt at h1
      split at h1
      · rename_i d hd
        simp only [hd, h1, if_true]
        exact ih (cur + 1) (by omega) (fun i hi hci => hall i hi (by omega)) (by omega)
      · simp at h1

theorem eatWhiteSpace_beyond {src : List Nat} {cur : Nat} (h : src.length < cur) (fuel : Nat) :
    eatWhiteSpace src (fuel + 1) cur = .error .outOfBounds := by
  rw [eatWhiteSpace]
  have hne : src.length ≠ cur := by omega
  have hnone : src[cur]? = none := List.getElem?_eq_none (by omega)
  simp [hne, hnone]

/-- From a cursor inside the buffer, either only whitespace is left or there is a first
non-whitespace character. -/
theorem allSpace_or_first (src : List Nat) (cur : Nat) :
    AllSpaceFrom src cur ∨ ∃ p c, FirstNonSpace src cur p c := by
  by_cases hall : AllSpaceFrom src cur
  · exact Or.inl hall
  · right
    have hex : ∃ i, i < src.length ∧ cur ≤ i ∧ spaceAt src i = false := by
      unfold AllSpaceFrom at hall
      push_neg at hall
      obtain ⟨i, h1, h2, h3⟩ := hall
      exact ⟨i, h1, h2, by simpa using h3⟩
    classical
    refine ⟨Nat.find hex, src[Nat.find hex]?.getD 0, ?_⟩
    obtain ⟨h1, h2, h3⟩ := Nat.find_spec hex
    have hget : src[Nat.find hex]? = some (src[Nat.find hex]) := List.getElem?_eq_getElem h1
    refine ⟨h2, by simp [hget], ?_, ?_⟩
    · unfold spaceAt at h3
      simpa [hget] using h3
    · intro i hi hci
      have := Nat.find_min hex hi
      by_contra hcon
      exact this ⟨by omega, hci, by simpa using hcon⟩

theorem FirstNonSpace.not_allSpace {src : List Nat} {cur p c : Nat}
    (h : FirstNonSpace src cur p c) : ¬ AllSpaceFrom src cur := by
  obtain ⟨hle, hc, hns, _⟩ := h
  intro hall
  have hp : p < src.length := (List.getElem?_eq_some_iff.mp hc).1
  have := hall p hp hle
  simp [spaceAt, hc, hns] at this

theorem FirstNonSpace.unique {src : List Nat} {cur p c q d : Nat}
    (h : FirstNonSpace src cur p c) (h2 : FirstNonSpace src cur q d) : p = q ∧ c = d := by
  obtain ⟨hle, hc, hns, hsp⟩ := h
  obtain ⟨hle2, hc2, hns2, hsp2⟩ := h2
  have hpq : p = q := by
    rcases Nat.lt_trichotomy p q with hlt | heq | hgt
    · have := hsp2 p hlt hle
      simp [spaceAt, hc, hns] at this
    · exact heq
    · have := hsp q hgt hle2
      simp [spaceAt, hc2, hns2] at this
  subst hpq
  rw [hc] at hc2
  exact ⟨rfl, by simpa using hc2⟩

/-- The facts about the whitespace loop that determine a call of `getNextToken` when a
non-whitespace character is left. -/
theorem eat_facts {s : Scanner} {p c : Nat} (h : FirstNonSpace s.sourceCode s.currentElement p c) :
    eatWhiteSpace s.sourceCode (s.sourceCode.length - s.currentElement + 1) s.currentElement
      = .ok p ∧ p ≠ s.sourceCode.length ∧ p < s.sourceCode.length := by
  have hp : p < s.sourceCode.length := (List.getElem?_eq_some_iff.mp h.2.1).1
  exact ⟨eatWhiteSpace_first h _ (by have := h.1; omega), by omega, hp⟩

theorem doubleOperator_eq {src : List Nat} {p : Nat} (hp : p < src.length) (op : Nat) :
    doubleOperator src p op = .ok (if src[p + 1]? = some op then p + 1 else p) := by
  unfold doubleOperator
  by_cases hlen : src.length = p + 1
  · have hnone : src[p + 1]? = none := List.getElem?_eq_none (by omega)
    simp [hlen, hnone]
  · have hlt : p + 1 < src.length := by omega
    have hget : src[p + 1]? = some (src[p + 1]) := List.getElem?_eq_getElem hlt
    rw [if_pos hlen, hget]
    by_cases hd : src[p + 1] = op <;> simp [hd]

/-! ## One call of `getNextToken`, case by case -/

theorem getNextToken_beyond {s : Scanner} (h : s.sourceCode.length < s.currentElement) :
    getNextToken s = .error .outOfBounds := by
  simp only [getNextToken, eatWhiteSpace_beyond h]

theorem getNextToken_allSpace {s : Scanner} (hle : s.currentElement ≤ s.sourceCode.length)
    (h : AllSpaceFrom s.sourceCode s.currentElement) :
    getNextToken s = .ok (⟨Token.END, null_cchar, 0⟩, ⟨s.sourceCode, s.sourceCode.length⟩) := by
  have he := eatWhiteSpace_allSpace (s.sourceCode.length - s.currentElement + 1)
    s.currentElement hle h (by omega)
  simp only [getNextToken, he, if_true]

theorem getNextToken_lower {s : Scanner} {p c : Nat}
    (h : FirstNonSpace s.sourceCode s.currentElement p c) (hc : IsLowercase c) :
    getNextToken s = .ok (⟨Token.ID, c, c - 97⟩, ⟨s.sourceCode, p + 1⟩) := by
  obtain ⟨he, hne, _⟩ := eat_facts h
  simp only [IsLowercase, Char.reduceToNat] at hc
  have hl : islower c = true := by simp [islower, hc.1, hc.2]
  simp only [getNextToken, he, hne, h.2.1, hl, if_true, if_false]

theorem getNextToken_upper {s : Scanner} {p c : Nat}
    (h : FirstNonSpace s.sourceCode s.currentElement p c) (hc : IsUppercase c) :
    getNextToken s = .ok (⟨Token.ID, c, c - 65 + 26⟩, ⟨s.sourceCode, p + 1⟩) := by
  obtain ⟨he, hne, _⟩ := eat_facts h
  simp only [IsUppercase, Char.reduceToNat] at hc
  have hl : islower c = false := by simp [islower]; omega
  have hu : isupper c = true := by simp [isupper, hc.1, hc.2]
  simp only [getNextToken, he, hne, h.2.1, hl, hu, if_true, if_false]
  simp

theorem getNextToken_operator {s : Scanner} {p c : Nat} {k : Token}
    (h : FirstNonSpace s.sourceCode s.currentElement p c) (hk : operatorKind c = some k) :
    getNextToken s = .ok (⟨k, c, 0⟩, ⟨s.sourceCode, cursorAfter s.sourceCode p c⟩) := by
  obtain ⟨he, hne, hp⟩ := eat_facts h
  simp only [operatorKind, Char.reduceToNat] at hk
  simp only [getNextToken, he, hne, h.2.1, if_false, cursorAfter, Char.reduceToNat,
    doubleOperator_eq hp]
  split_ifs at hk with h1 h2 h3 h4 h5 h6
  · rcases h1 with rfl | rfl
    · injection hk with hk; subst hk
      by_cases hd : s.sourceCode[p + 1]? = some 124 <;> simp [islower, isupper, hd]
    · injection hk with hk; subst hk
      simp [islower, isupper]
  · subst h2; injection hk with hk; subst hk
    simp [islower, isupper]
  · rcases h3 with rfl | rfl
    · injection hk with hk; subst hk
      by_cases hd : s.sourceCode[p + 1]? = some 38 <;> simp [islower, isupper, hd]
    · injection hk with hk; subst hk
      simp [islower, isupper]
  · rcases h4 with rfl | rfl <;>
    · injection hk with hk; subst hk
      simp [islower, isupper]
  · subst h5; injection hk with hk; subst hk
    simp [islower, isupper]
  · subst h6; injection hk with hk; subst hk
    simp [islower, isupper]

theorem getNextToken_other {s : Scanner} {p c : Nat}
    (h : FirstNonSpace s.sourceCode s.currentElement p c) (hl : ¬ IsLowercase c)
    (hu : ¬ IsUppercase c) (hk : operatorKind c = none) :
    getNextToken s = .ok (⟨Token.NONE, c, 0⟩, ⟨s.sourceCode, p + 1⟩) := by
  obtain ⟨he, hne, hp⟩ := eat_facts h
  simp only [IsLowercase, Char.reduceToNat] at hl
  simp only [IsUppercase, Char.reduceToNat] at hu
  have hl1 : islower c = false := by simp [islower]; omega
  have hu1 : isupper c = false := by simp [isupper]; omega
  simp only [operatorKind, Char.reduceToNat] at hk
  split_ifs at hk with h1 h2 h3 h4 h5 h6
  simp only [getNextToken, he, hne, h.2.1, hl1, hu1, if_false]
  have e1 : c ≠ 124 := fun e => h1 (Or.inl e)
  have e2 : c ≠ 43 := fun e => h1 (Or.inr e)
  have e3 : c ≠ 38 := fun e => h3 (Or.inl e)
  have e4 : c ≠ 42 := fun e => h3 (Or.inr e)
  simp [e1, e2, e3, e4, h2, h4, h5, h6]

theorem operatorKind_eq_none_iff (c : Nat) :
    operatorKind c = none ↔ c ∉ ofAscii "|+^&*!~()" := by
  simp only [ofAscii, String.toList, List.map_cons, List.map_nil, Char.reduceToNat,
    List.mem_cons, List.mem_singleton, List.not_mem_nil, or_false, operatorKind]
  constructor
  · intro h
    split_ifs at h
    omega
  · intro h
    split_ifs <;> first | rfl | omega

theorem operatorKind_not_letter {c : Nat} {k : Token} (hk : operatorKind c = some k) :
    ¬ IsLowercase c ∧ ¬ IsUppercase c := by
  simp only [operatorKind, Char.reduceToNat] at hk
  simp only [IsLowercase, IsUppercase, Char.reduceToNat]
  split_ifs at hk <;> omega

theorem operatorKind_ne_end {c : Nat} {k : Token} (hk : operatorKind c = some k) :
    k ≠ Token.END := by
  unfold operatorKind at hk
  split_ifs at hk <;> (injection hk with hk; subst hk; decide)

theorem operatorKind_ne_none {c : Nat} {k : Token} (hk : operatorKind c = some k) :
    k ≠ Token.NONE := by
  unfold operatorKind at hk
  split_ifs at hk <;> (injection hk with hk; subst hk; decide)

theorem cursorAfter_letter {src : List Nat} {p c : Nat} (hc : IsLowercase c ∨ IsUppercase c) :
    cursorAfter src p c = p + 1 := by
  simp only [IsLowercase, IsUppercase, Char.reduceToNat] at hc
  have h1 : ¬ ((c = 124 ∨ c = 38) ∧ src[p + 1]? = some c) := by
    rintro ⟨h, _⟩; omega
  simp only [cursorAfter, Char.reduceToNat, if_neg h1]

theorem cursorAfter_other {src : List Nat} {p c : Nat} (hk : operatorKind c = none) :
    cursorAfter src p c = p + 1 := by
  have h1 : ¬ ((c = 124 ∨ c = 38) ∧ src[p + 1]? = some c) := by
    rintro ⟨h, _⟩
    rcases h with rfl | rfl <;> exact absurd hk (by decide)
  simp only [cursorAfter, Char.reduceToNat, if_neg h1]

theorem cursorAfter_bounds (src : List Nat) (p c : Nat) :
    p + 1 ≤ cursorAfter src p c ∧ cursorAfter src p c ≤ p + 2 := by
  unfold cursorAfter
  split_ifs <;> omega

/-- One call of `getNextToken` when a non-whitespace character is left: the token is the
one the specification gives for that character, and the cursor moves past it. -/
theorem getNextToken_first {s : Scanner} {p c : Nat}
    (h : FirstNonSpace s.sourceCode s.currentElement p c) :
    getNextToken s = .ok (symbolToken c, ⟨s.sourceCode, cursorAfter s.sourceCode p c⟩) := by
  unfold symbolToken
  by_cases hl : IsLowercase c
  · rw [if_pos hl, cursorAfter_letter (Or.inl hl), getNextToken_lower h hl]; rfl
  · rw [if_neg hl]
    by_cases hu : IsUppercase c
    · rw [if_pos hu, cursorAfter_letter (Or.inr hu), getNextToken_upper h hu, Nat.add_comm 26]
      rfl
    · rw [if_neg hu]
      cases hk : operatorKind c with
      | none => rw [cursorAfter_other hk, getNextToken_other h hl hu hk]
      | some k => rw [getNextToken_operator h hk]

theorem symbolToken_ne_end (c : Nat) : (symbolToken c).token ≠ Token.END := by
  unfold symbolToken
  split_ifs
  · exact fun e => Token.noConfusion e
  · exact fun e => Token.noConfusion e
  · cases hk : operatorKind c with
    | none => exact fun e => Token.noConfusion e
    | some k => exact operatorKind_ne_end hk

theorem symbolToken_none_iff (c : Nat) :
    (symbolToken c).token = Token.NONE ↔
      ¬ IsLowercase c ∧ ¬ IsUppercase c ∧ c ∉ ofAscii "|+^&*!~()" := by
  rw [← operatorKind_eq_none_iff]
  unfold symbolToken
  by_cases hl : IsLowercase c
  · simp [hl]
  · by_cases hu : IsUppercase c
    · simp [hl, hu]
    · cases hk : operatorKind c with
      | none => simp [hl, hu]
      | some k => simpa [hl, hu] using operatorKind_ne_none hk

/-- The three cases of a call of `getNextToken`: the cursor is outside the buffer, only
whitespace is left, or there is a first non-whitespace character. -/
theorem getNextToken_ok_cases {s s1 : Scanner} {t : TokenWithAttribute}
    (h : getNextToken s = .ok (t, s1)) :
    s.currentElement ≤ s.sourceCode.length ∧
    ((AllSpaceFrom s.sourceCode s.currentElement ∧ t = ⟨Token.END, null_cchar, 0⟩ ∧
        s1 = ⟨s.sourceCode, s.sourceCode.length⟩) ∨
     (∃ p c, FirstNonSpace s.sourceCode s.currentElement p c ∧ t = symbolToken c ∧
        s1 = ⟨s.sourceCode, cursorAfter s.sourceCode p c⟩)) := by
  by_cases hle : s.currentElement ≤ s.sourceCode.length
  · refine ⟨hle, ?_⟩
    rcases allSpace_or_first s.sourceCode s.currentElement with hall | ⟨p, c, hf⟩
    · left
      rw [getNextToken_allSpace hle hall] at h
      injection h with h
      injection h with h1 h2
      exact ⟨hall, h1.symm, h2.symm⟩
    · right
      rw [getNextToken_first hf] at h
      injection h with h
      injection h with h1 h2
      exact ⟨p, c, hf, h1.symm, h2.symm⟩
  · rw [getNextToken_beyond (by omega)] at h
    exact Except.noConfusion h

/-! ## Scanning to `END` -/

theorem scanTokens_end {fuel : Nat} {s s1 : Scanner} {t : TokenWithAttribute}
    (h : getNextToken s = .ok (t, s1)) (ht : t.token = Token.END) :
    scanTokens (fuel + 1) s = .ok [t] := by
  simp only [scanTokens, h, ht, if_true]

theorem scanTokens_cons {fuel : Nat} {s s1 : Scanner} {t : TokenWithAttribute}
    {ts : List TokenWithAttribute} (h : getNextToken s = .ok (t, s1))
    (ht : t.token ≠ Token.END) (hrest : scanTokens fuel s1 = .ok ts) :
    scanTokens (fuel + 1) s = .ok (t :: ts) := by
  simp only [scanTokens, h, ht, if_false, hrest]

/-- An operator that has a doubled spelling, written twice with whitespace in between, is
two tokens. -/
theorem scan_split_operator {op : Nat} {k : Token} (hop : op = 124 ∨ op = 38)
    (hk : operatorKind op = some k) (w : List Nat) (hne : w ≠ [])
    (hw : ∀ x ∈ w, isspace x = true) :
    scan (op :: (w ++ [op])) = .ok [⟨k, op, 0⟩, ⟨k, op, 0⟩, ⟨Token.END, null_cchar, 0⟩] := by
  obtain ⟨x, w1, rfl⟩ := List.exists_cons_of_ne_nil hne
  have hopsp : isspace op = false := by rcases hop with rfl | rfl <;> decide
  have hx : isspace x = true := hw x (List.mem_cons_self _ _)
  have hxop : x ≠ op := by
    intro e; rw [e, hopsp] at hx; exact Bool.noConfusion hx
  set src := op :: (x :: w1 ++ [op]) with hsrc
  have hlen : src.length = w1.length + 3 := by simp [hsrc]
  -- first call: the operator at index 0, followed by whitespace
  have h0 : FirstNonSpace src 0 0 op :=
    ⟨Nat.le_refl _, by simp [hsrc], hopsp, fun i hi _ => absurd hi (Nat.not_lt_zero _)⟩
  have c0 : cursorAfter src 0 op = 1 := by
    have : src[0 + 1]? = some x := by simp [hsrc]
    simp [cursorAfter, this, hxop]
  have g0 := getNextToken_operator (s := ⟨src, 0⟩) h0 hk
  simp only [c0] at g0
  -- second call: whitespace, then the operator as the last character
  have hlast : src[w1.length + 2]? = some op := by
    simp [hsrc, List.getElem?_cons_succ, List.getElem?_append_right]
  have h1 : FirstNonSpace src 1 (w1.length + 2) op := by
    refine ⟨by omega, hlast, hopsp, ?_⟩
    intro i hi hi1
    obtain ⟨j, rfl⟩ : ∃ j, i = j + 1 := ⟨i - 1, by omega⟩
    have hj : j < (x :: w1).length := by simp; omega
    have hget : src[j + 1]? = some ((x :: w1)[j]) := by
      rw [hsrc, List.getElem?_cons_succ, List.getElem?_append_left hj]
      exact List.getElem?_eq_getElem hj
    have hsp : isspace ((x :: w1)[j]) = true := hw _ (List.getElem_mem _)
    simp [spaceAt, hget, hsp]
  have c1 : cursorAfter src (w1.length + 2) op = w1.length + 3 := by
    have : src[w1.length + 2 + 1]? = none := List.getElem?_eq_none (by omega)
    simp [cursorAfter, this]
  have g1 := getNextToken_operator (s := ⟨src, 1⟩) h1 hk
  simp only [c1] at g1
  -- third call: the cursor is at the end
  have a2 : AllSpaceFrom src (w1.length + 3) := fun i hi hci => by
    rw [hlen] at hi; omega
  have g2 := getNextToken_allSpace (s := ⟨src, w1.length + 3⟩) (Nat.le_of_eq hlen.symm) a2
  simp only [hlen] at g2
  have hkend := operatorKind_ne_end hk
  unfold scan Scanner.init
  rw [hlen]
  exact scanTokens_cons g0 hkend (scanTokens_cons g1 hkend (scanTokens_end g2 rfl))

theorem allSpaceFrom_length (src : List Nat) : AllSpaceFrom src src.length :=
  fun _ hi hci => absurd hi (Nat.not_lt.mpr hci)

/-- The iteration bound that `getNextToken` gives its whitespace loop is never used up. -/
theorem getNextToken_ne_outOfFuel (s : Scanner) : getNextToken s ≠ .error .outOfFuel := by
  intro h
  by_cases hle : s.currentElement ≤ s.sourceCode.length
  · rcases allSpace_or_first s.sourceCode s.currentElement with hall | ⟨p, c, hf⟩
    · rw [getNextToken_allSpace hle hall] at h
      exact Except.noConfusion h
    · rw [getNextToken_first hf] at h
      exact Except.noConfusion h
  · rw [getNextToken_beyond (by omega)] at h
    injection h with h
    exact ScanError.noConfusion h

theorem getNextToken_at_end (src : List Nat) :
    getNextToken ⟨src, src.length⟩
      = .ok (⟨Token.END, null_cchar, 0⟩, ⟨src, src.length⟩) :=
  getNextToken_allSpace (s := ⟨src, src.length⟩) (Nat.le_refl _) (allSpaceFrom_length src)

theorem getNextTokenN_at_end (src : List Nat) (n : Nat) :
    getNextTokenN n ⟨src, src.length⟩
      = .ok (⟨Token.END, null_cchar, 0⟩, ⟨src, src.length⟩) := by
  induction n with
  | zero => exact getNextToken_at_end src
  | succ n ih => simp only [getNextTokenN, getNextToken_at_end, ih]

/-! ## The scanner and the tokens of a character list -/

theorem lex_cons (c : Nat) (rest : List Nat) :
    lex (c :: rest) =
      if isspace c then lex rest
      else symbolToken c ::
        lex (if (c = 124 ∨ c = 38) ∧ rest.head? = some c then rest.tail else rest) := by
  cases rest with
  | nil => simp [lex]
  | cons d rest =>
    simp only [lex, Char.reduceToNat, List.head?_cons, List.tail_cons, Option.some.injEq]
    by_cases hs : isspace c = true
    · simp [hs]
    · by_cases hd : (c = 124 ∨ c = 38) ∧ d = c
      · simp [hs, hd]
      · simp [hs, hd]

theorem lex_cons_space {c : Nat} (rest : List Nat) (hc : isspace c = true) :
    lex (c :: rest) = lex rest := by
  rw [lex_cons, if_pos hc]

theorem lex_drop_skip {src : List Nat} {p : Nat} :
    ∀ d cur, cur + d = p → p ≤ src.length →
      (∀ i, i < p → cur ≤ i → spaceAt src i = true) →
      lex (src.drop cur) = lex (src.drop p) := by
  intro d
  induction d with
  | zero => intro cur h _ _; simp at h; rw [h]
  | succ n ih =>
    intro cur h hp hsp
    have hlt : cur < src.length := by omega
    have h1 := hsp cur (by omega) (Nat.le_refl _)
    have hget : src[cur]? = some (src[cur]) := List.getElem?_eq_getElem hlt
    simp only [spaceAt, hget] at h1
    rw [List.drop_eq_getElem_cons hlt, lex_cons_space _ h1]
    exact ih (cur + 1) (by omega) hp (fun i hi hci => hsp i hi (by omega))

theorem lex_drop_first {src : List Nat} {cur p c : Nat} (h : FirstNonSpace src cur p c) :
    lex (src.drop cur) = symbolToken c :: lex (src.drop (cursorAfter src p c)) := by
  obtain ⟨hle, hc, hns, hsp⟩ := h
  obtain ⟨hp, hcp⟩ := List.getElem?_eq_some_iff.mp hc
  rw [lex_drop_skip (p - cur) cur (by omega) (Nat.le_of_lt hp) hsp,
    List.drop_eq_getElem_cons hp, hcp, lex_cons]
  simp only [hns, Bool.false_eq_true, if_false, List.head?_drop, List.tail_drop, cursorAfter,
    Char.reduceToNat]
  by_cases hd : (c = 124 ∨ c = 38) ∧ src[p + 1]? = some c
  · simp only [if_pos hd]
  · simp only [if_neg hd]

theorem lex_drop_allSpace {src : List Nat} {cur : Nat} (hle : cur ≤ src.length)
    (h : AllSpaceFrom src cur) : lex (src.drop cur) = [] := by
  rw [lex_drop_skip (src.length - cur) cur (by omega) (Nat.le_refl _) (fun i hi hci => h i hi hci)]
  simp [lex]

theorem cursorAfter_le {src : List Nat} {cur p c : Nat} (h : FirstNonSpace src cur p c) :
    cursorAfter src p c ≤ src.length := by
  have hp : p < src.length := (List.getElem?_eq_some_iff.mp h.2.1).1
  unfold cursorAfter
  split_ifs with hd
  · have := (List.getElem?_eq_some_iff.mp hd.2).1
    omega
  · omega

/-- The loop that scans to `END` returns the tokens of the rest of the source, then `END`,
whenever it is allowed more calls than there are characters left. -/
theorem scanTokens_eq_lex {src : List Nat} :
    ∀ fuel cur, cur ≤ src.length → src.length - cur < fuel →
      scanTokens fuel ⟨src, cur⟩ = .ok (lex (src.drop cur) ++ [⟨Token.END, null_cchar, 0⟩]) := by
  intro fuel
  induction fuel with
  | zero => intro cur _ h; omega
  | succ n ih =>
    intro cur hle hf
    rcases allSpace_or_first src cur with hall | ⟨p, c, hfirst⟩
    · rw [lex_drop_allSpace hle hall]
      exact scanTokens_end (getNextToken_allSpace (s := ⟨src, cur⟩) hle hall) rfl
    · have hb := (cursorAfter_bounds src p c).1
      have hp := hfirst.1
      have hc := cursorAfter_le hfirst
      have hrest := ih (cursorAfter src p c) hc (by omega)
      rw [lex_drop_first hfirst]
      exact scanTokens_cons (getNextToken_first (s := ⟨src, cur⟩) hfirst)
        (symbolToken_ne_end c) hrest

theorem scan_eq_lex (src : List Nat) :
    scan src = .ok (lex src ++ [⟨Token.END, null_cchar, 0⟩]) := by
  have h := @scanTokens_eq_lex src (src.length + 1) 0 (Nat.zero_le _) (by omega)
  simpa [scan, Scanner.init] using h

theorem tokens_eq_lex (src : List Nat) : tokens src = .ok (lex src) := by
  simp [tokens, scan_eq_lex]

/-! ## Properties of the tokens of a character list -/

theorem lex_cons_single {c : Nat} {rest : List Nat} (hc : isspace c = false)
    (hd : ¬ ((c = 124 ∨ c = 38) ∧ rest.head? = some c)) :
    lex (c :: rest) = symbolToken c :: lex rest := by
  rw [lex_cons, if_neg hd]
  simp [hc]

theorem lex_cons_double {c : Nat} (rest : List Nat) (hc : isspace c = false)
    (hop : c = 124 ∨ c = 38) :
    lex (c :: c :: rest) = symbolToken c :: lex rest := by
  rw [lex_cons]
  simp [hc, hop]

/-- Induction along the way `lex` reads a character list: a whitespace character, a single
character token, or a doubled operator. -/
theorem lex_induction {P : List Nat → Prop} (nil : P [])
    (space : ∀ c rest, isspace c = true → P rest → P (c :: rest))
    (single : ∀ c rest, isspace c = false →
      ¬ ((c = 124 ∨ c = 38) ∧ rest.head? = some c) → P rest → P (c :: rest))
    (double : ∀ c rest, isspace c = false → (c = 124 ∨ c = 38) → P rest →
      P (c :: c :: rest)) :
    ∀ l, P l := by
  have main : ∀ n (l : List Nat), l.length ≤ n → P l := by
    intro n
    induction n with
    | zero =>
      intro l hl
      have : l = [] := List.length_eq_zero.mp (Nat.le_zero.mp hl)
      rw [this]; exact nil
    | succ n ih =>
      intro l hl
      cases l with
      | nil => exact nil
      | cons c rest =>
        have hr : rest.length ≤ n := by simpa using hl
        by_cases hs : isspace c = true
        · exact space c rest hs (ih rest hr)
        · have hs1 : isspace c = false := by simpa using hs
          by_cases hd : (c = 124 ∨ c = 38) ∧ rest.head? = some c
          · cases rest with
            | nil => simp at hd
            | cons d rest1 =>
              have hdc : d = c := by simpa using hd.2
              subst hdc
              exact double d rest1 hs1 hd.1 (ih rest1 (by simp at hr; omega))
          · exact single c rest hs1 hd (ih rest hr)
  exact fun l => main l.length l (Nat.le_refl _)

theorem lex_length_le (l : List Nat) : (lex l).length ≤ l.length := by
  induction l using lex_induction with
  | nil => simp [lex]
  | space c rest hs ih => rw [lex_cons_space _ hs]; simp; omega
  | single c rest hs hd ih => rw [lex_cons_single hs hd]; simp; omega
  | double c rest hs hop ih => rw [lex_cons_double _ hs hop]; simp; omega

theorem lex_mem {l : List Nat} {t : TokenWithAttribute} :
    t ∈ lex l → ∃ c, c ∈ l ∧ isspace c = false ∧ t = symbolToken c := by
  induction l using lex_induction with
  | nil => simp [lex]
  | space c rest hs ih =>
    rw [lex_cons_space _ hs]
    intro h
    obtain ⟨d, hd, hd2⟩ := ih h
    exact ⟨d, List.mem_cons_of_mem _ hd, hd2⟩
  | single c rest hs hd ih =>
    rw [lex_cons_single hs hd]
    intro h
    rcases List.mem_cons.mp h with rfl | h
    · exact ⟨c, List.mem_cons_self _ _, hs, rfl⟩
    · obtain ⟨d, hd, hd2⟩ := ih h
      exact ⟨d, List.mem_cons_of_mem _ hd, hd2⟩
  | double c rest hs hop ih =>
    rw [lex_cons_double _ hs hop]
    intro h
    rcases List.mem_cons.mp h with rfl | h
    · exact ⟨c, List.mem_cons_self _ _, hs, rfl⟩
    · obtain ⟨d, hd, hd2⟩ := ih h
      exact ⟨d, List.mem_cons_of_mem _ (List.mem_cons_of_mem _ hd), hd2⟩

theorem lex_ne_end {l : List Nat} {t : TokenWithAttribute} (h : t ∈ lex l) :
    t.token ≠ Token.END := by
  obtain ⟨c, _, _, rfl⟩ := lex_mem h
  exact symbolToken_ne_end c

/-- Scanning to `END` is within reach of the calls allowed: call number `k + 1` returns
`END` for some `k` not greater than the number of characters left. -/
theorem getNextTokenN_reaches_end {src : List Nat} :
    ∀ d cur, cur ≤ src.length → src.length - cur ≤ d →
      ∃ k, k ≤ d ∧ getNextTokenN k ⟨src, cur⟩
        = .ok (⟨Token.END, null_cchar, 0⟩, ⟨src, src.length⟩) := by
  intro d
  induction d with
  | zero =>
    intro cur hle hd
    have hcur : cur = src.length := by omega
    subst hcur
    exact ⟨0, Nat.le_refl _, getNextToken_at_end src⟩
  | succ n ih =>
    intro cur hle hd
    rcases allSpace_or_first src cur with hall | ⟨p, c, hfirst⟩
    · exact ⟨0, Nat.zero_le _, getNextToken_allSpace (s := ⟨src, cur⟩) hle hall⟩
    · have hb := (cursorAfter_bounds src p c).1
      have hp := hfirst.1
      have hc := cursorAfter_le hfirst
      obtain ⟨k, hk, hk2⟩ := ih (cursorAfter src p c) hc (by omega)
      refine ⟨k + 1, by omega, ?_⟩
      have g := getNextToken_first (s := ⟨src, cur⟩) hfirst
      simp only [getNextTokenN, g]
      exact hk2

/-! ## The attributes of a token -/

theorem symbolToken_symbol (c : Nat) : (symbolToken c).inputTerminalSymbol = c := by
  unfold symbolToken
  split_ifs
  · rfl
  · rfl
  · cases operatorKind c <;> rfl

theorem operatorKind_ne_id {c : Nat} {k : Token} (hk : operatorKind c = some k) :
    k ≠ Token.ID := by
  unfold operatorKind at hk
  split_ifs at hk <;> (injection hk with hk; subst hk; decide)

theorem operatorKind_and {c : Nat} (hk : operatorKind c = some Token.AND) :
    c = 38 ∨ c = 42 := by
  simp only [operatorKind, Char.reduceToNat] at hk
  split_ifs at hk with h1 h2 h3 h4 h5 h6
  · exact absurd hk (by decide)
  · exact absurd hk (by decide)
  · exact h3
  · exact absurd hk (by decide)
  · exact absurd hk (by decide)
  · exact absurd hk (by decide)

/-- The four shapes of the token of a non-whitespace character. -/
theorem symbolToken_cases (c : Nat) :
    (IsLowercase c ∧ symbolToken c = ⟨Token.ID, c, c - 97⟩) ∨
    (¬ IsLowercase c ∧ IsUppercase c ∧ symbolToken c = ⟨Token.ID, c, 26 + (c - 65)⟩) ∨
    (¬ IsLowercase c ∧ ¬ IsUppercase c ∧
      ∃ k, operatorKind c = some k ∧ symbolToken c = ⟨k, c, 0⟩) ∨
    (¬ IsLowercase c ∧ ¬ IsUppercase c ∧ operatorKind c = none ∧
      symbolToken c = ⟨Token.NONE, c, 0⟩) := by
  unfold symbolToken
  by_cases hl : IsLowercase c
  · left
    simp [hl]
  · by_cases hu : IsUppercase c
    · right; left
      simp [hl, hu]
    · cases hk : operatorKind c with
      | none => right; right; right; simp [hl, hu]
      | some k => right; right; left; simp [hl, hu]

theorem symbolToken_and {c : Nat} (h : (symbolToken c).token = Token.AND) :
    c = 38 ∨ c = 42 := by
  rcases symbolToken_cases c with ⟨_, e⟩ | ⟨_, _, e⟩ | ⟨_, _, k, hk, e⟩ | ⟨_, _, _, e⟩
  · rw [e] at h; exact Token.noConfusion h
  · rw [e] at h; exact Token.noConfusion h
  · rw [e] at h
    have hk2 : k = Token.AND := h
    subst hk2
    exact operatorKind_and hk
  · rw [e] at h; exact Token.noConfusion h

theorem symbolToken_index_zero {c : Nat} (h : (symbolToken c).token ≠ Token.ID) :
    (symbolToken c).sourceIndex = 0 := by
  rcases symbolToken_cases c with ⟨_, e⟩ | ⟨_, _, e⟩ | ⟨_, _, k, hk, e⟩ | ⟨_, _, _, e⟩
  · rw [e] at h; exact absurd rfl h
  · rw [e] at h; exact absurd rfl h
  · rw [e]
  · rw [e]

theorem symbolToken_id {c : Nat} (h : (symbolToken c).token = Token.ID) :
    (IsLowercase c ∧ (symbolToken c).sourceIndex = c - 97) ∨
    (IsUppercase c ∧ (symbolToken c).sourceIndex = 26 + (c - 65)) := by
  rcases symbolToken_cases c with ⟨hl, e⟩ | ⟨_, hu, e⟩ | ⟨_, _, k, hk, e⟩ | ⟨_, _, _, e⟩
  · left; rw [e]; exact ⟨hl, rfl⟩
  · right; rw [e]; exact ⟨hu, rfl⟩
  · rw [e] at h
    exact absurd h (operatorKind_ne_id hk)
  · rw [e] at h; exact Token.noConfusion h

/-- A call of `getNextToken` that returns a token other than END found a first
non-whitespace character; the token and the cursor are determined by it. -/
theorem getNextToken_not_end {s s1 : Scanner} {t : TokenWithAttribute}
    (h : getNextToken s = .ok (t, s1)) (ht : t.token ≠ Token.END) :
    ∃ p c, FirstNonSpace s.sourceCode s.currentElement p c ∧ t = symbolToken c ∧
      s1 = ⟨s.sourceCode, cursorAfter s.sourceCode p c⟩ := by
  rcases (getNextToken_ok_cases h).2 with ⟨_, rfl, _⟩ | h2
  · exact absurd rfl ht
  · exact h2

/-- What a call of `getNextToken` returns is END or the token of a character. -/
theorem getNextToken_token {s s1 : Scanner} {t : TokenWithAttribute}
    (h : getNextToken s = .ok (t, s1)) :
    t = ⟨Token.END, null_cchar, 0⟩ ∨ ∃ c, t = symbolToken c := by
  rcases (getNextToken_ok_cases h).2 with ⟨_, rfl, _⟩ | ⟨p, c, _, rfl, _⟩
  · exact Or.inl rfl
  · exact Or.inr ⟨c, rfl⟩

/-! ## Whitespace between tokens -/

theorem lex_allSpace_append {w : List Nat} (r : List Nat) (hw : ∀ x ∈ w, isspace x = true) :
    lex (w ++ r) = lex r := by
  induction w with
  | nil => rfl
  | cons x w ih =>
    rw [List.cons_append, lex_cons_space _ (hw x (List.mem_cons_self _ _))]
    exact ih (fun y hy => hw y (List.mem_cons_of_mem _ hy))

theorem lex_append_space (s : List Nat) {x : Nat} (r : List Nat) (hx : isspace x = true) :
    lex (s ++ x :: r) = lex s ++ lex r := by
  induction s using lex_induction with
  | nil => simp [lex, lex_cons_space _ hx]
  | space c rest hs ih =>
    rw [List.cons_append, lex_cons_space _ hs, lex_cons_space _ hs, ih]
  | single c rest hs hd ih =>
    have hd2 : ¬ ((c = 124 ∨ c = 38) ∧ (rest ++ x :: r).head? = some c) := by
      rintro ⟨hop, hh⟩
      cases rest with
      | nil =>
        have hxc : x = c := by simpa using hh
        rw [hxc, hs] at hx
        exact Bool.noConfusion hx
      | cons d rest1 => exact hd ⟨hop, by simpa using hh⟩
    rw [List.cons_append, lex_cons_single hs hd2, lex_cons_single hs hd, ih, List.cons_append]
  | double c rest hs hop ih =>
    rw [List.cons_append, List.cons_append, lex_cons_double _ hs hop, lex_cons_double _ hs hop,
      ih, List.cons_append]

theorem lex_append_whitespace (s t : List Nat) {w : List Nat} (hne : w ≠ [])
    (hw : ∀ x ∈ w, isspace x = true) :
    lex (s ++ w ++ t) = lex s ++ lex t := by
  obtain ⟨x, w1, rfl⟩ := List.exists_cons_of_ne_nil hne
  rw [List.append_assoc, List.cons_append,
    lex_append_space s _ (hw x (List.mem_cons_self _ _)),
    lex_allSpace_append t (fun y hy => hw y (List.mem_cons_of_mem _ hy))]

theorem firstNonSpaceChar_eq_some {l : List Nat} {c : Nat} :
    firstNonSpaceChar l = some c →
      ∃ w post, l = w ++ c :: post ∧ ∀ x ∈ w, isspace x = true := by
  induction l with
  | nil => intro h; simp [firstNonSpaceChar] at h
  | cons d rest ih =>
    intro h
    unfold firstNonSpaceChar at h
    by_cases hd : isspace d = true
    · rw [if_pos hd] at h
      obtain ⟨w, post, e, hw⟩ := ih h
      refine ⟨d :: w, post, by rw [e]; rfl, ?_⟩
      intro x hx
      rcases List.mem_cons.mp hx with rfl | hx
      · exact hd
      · exact hw x hx
    · rw [if_neg hd] at h
      injection h with h
      subst h
      exact ⟨[], rest, rfl, fun x hx => absurd hx (List.not_mem_nil x)⟩

theorem firstNonSpaceChar_append {w : List Nat} (c : Nat) (post : List Nat)
    (hw : ∀ x ∈ w, isspace x = true) (hc : isspace c = false) :
    firstNonSpaceChar (w ++ c :: post) = some c := by
  induction w with
  | nil => simp [firstNonSpaceChar, hc]
  | cons x w ih =>
    rw [List.cons_append, firstNonSpaceChar, if_pos (hw x (List.mem_cons_self _ _))]
    exact ih (fun y hy => hw y (List.mem_cons_of_mem _ hy))

theorem head?_removeWhiteSpace (l : List Nat) :
    (removeWhiteSpace l).head? = firstNonSpaceChar l := by
  induction l with
  | nil => rfl
  | cons d rest ih =>
    unfold removeWhiteSpace at ih ⊢
    by_cases hd : isspace d = true
    · rw [List.filter_cons_of_neg (by simp [hd]), firstNonSpaceChar, if_pos hd, ih]
    · rw [List.filter_cons_of_pos (by simpa using hd), firstNonSpaceChar, if_neg hd]
      rfl

theorem SplitOperator.cons {c : Nat} {l : List Nat} (h : SplitOperator l) :
    SplitOperator (c :: l) := by
  obtain ⟨pre, w, post, op, hop, hne, hw, e⟩ := h
  exact ⟨c :: pre, w, post, op, hop, hne, hw, by rw [e]; rfl⟩

/-- The test `hasSplit` finds every split operator. -/
theorem hasSplit_of_splitOperator {l : List Nat} (h : SplitOperator l) : hasSplit l = true := by
  obtain ⟨pre, w, post, op, hop, hne, hw, e⟩ := h
  subst e
  have hopsp : isspace op = false := by
    simp only [Char.reduceToNat] at hop
    rcases hop with rfl | rfl <;> decide
  induction pre with
  | nil =>
    obtain ⟨x, w1, rfl⟩ := List.exists_cons_of_ne_nil hne
    have hx : isspace x = true := hw x (List.mem_cons_self _ _)
    have hf := firstNonSpaceChar_append op post hw hopsp
    simp only [List.nil_append, hasSplit, hop, decide_True, Bool.true_and]
    simp only [List.cons_append] at hf ⊢
    simp [hf, hx]
  | cons d pre ih =>
    rw [List.cons_append, hasSplit, ih, Bool.or_true]

/-- Removing the whitespace does not change the tokens when no operator is split. -/
theorem lex_removeWhiteSpace {l : List Nat} :
    ¬ SplitOperator l → lex (removeWhiteSpace l) = lex l := by
  induction l using lex_induction with
  | nil => intro _; rfl
  | space c rest hs ih =>
    intro hn
    rw [lex_cons_space _ hs]
    unfold removeWhiteSpace
    rw [List.filter_cons_of_neg (by simp [hs])]
    exact ih (fun h => hn h.cons)
  | single c rest hs hd ih =>
    intro hn
    have e : removeWhiteSpace (c :: rest) = c :: removeWhiteSpace rest := by
      unfold removeWhiteSpace
      rw [List.filter_cons_of_pos (by simp [hs])]
    have hd2 : ¬ ((c = 124 ∨ c = 38) ∧ (removeWhiteSpace rest).head? = some c) := by
      rintro ⟨hop, hh⟩
      rw [head?_removeWhiteSpace] at hh
      obtain ⟨w, post, e1, hw⟩ := firstNonSpaceChar_eq_some hh
      by_cases hwn : w = []
      · subst hwn
        exact hd ⟨hop, by rw [e1]; rfl⟩
      · exact hn ⟨[], w, post, c, by simpa using hop, hwn, hw, by rw [e1]; rfl⟩
    rw [e, lex_cons_single hs hd2, lex_cons_single hs hd, ih (fun h => hn h.cons)]
  | double c rest hs hop ih =>
    intro hn
    have e : removeWhiteSpace (c :: c :: rest) = c :: c :: removeWhiteSpace rest := by
      unfold removeWhiteSpace
      rw [List.filter_cons_of_pos (by simp [hs]), List.filter_cons_of_pos (by simp [hs])]
    rw [e, lex_cons_double _ hs hop, lex_cons_double _ hs hop, ih (fun h => hn h.cons.cons)]

/-! ## The cursor stays in the buffer -/

theorem getNextToken_in_buffer {s : Scanner} (hle : s.currentElement ≤ s.sourceCode.length) :
    ∃ t s1, getNextToken s = .ok (t, s1) ∧ s1.sourceCode = s.sourceCode ∧
      s1.currentElement ≤ s.sourceCode.length := by
  rcases allSpace_or_first s.sourceCode s.currentElement with hall | ⟨p, c, hf⟩
  · exact ⟨_, _, getNextToken_allSpace hle hall, rfl, Nat.le_refl _⟩
  · exact ⟨_, _, getNextToken_first hf, rfl, cursorAfter_le hf⟩

theorem getNextTokenN_in_buffer :
    ∀ (n : Nat) (s : Scanner), s.currentElement ≤ s.sourceCode.length →
      ∃ t s1, getNextTokenN n s = .ok (t, s1) ∧ s1.sourceCode = s.sourceCode ∧
        s1.currentElement ≤ s.sourceCode.length := by
  intro n
  induction n with
  | zero => exact fun s hle => getNextToken_in_buffer hle
  | succ n ih =>
    intro s hle
    obtain ⟨t, s1, h, hsrc, hcur⟩ := getNextToken_in_buffer hle
    obtain ⟨t2, s2, h2, hsrc2, hcur2⟩ := ih s1 (by rw [hsrc]; exact hcur)
    refine ⟨t2, s2, ?_, by rw [hsrc2, hsrc], by rw [← hsrc]; exact hcur2⟩
    simp only [getNextTokenN, h]
    exact h2

/-! ## Runs of one operator character -/

theorem lex_replicate {op : Nat} (hop : op = 124 ∨ op = 38) :
    ∀ n, lex (List.replicate n op) = List.replicate ((n + 1) / 2) (symbolToken op) := by
  have hs : isspace op = false := by rcases hop with rfl | rfl <;> decide
  have two : ∀ n, lex (List.replicate n op) = List.replicate ((n + 1) / 2) (symbolToken op) ∧
      lex (List.replicate (n + 1) op)
        = List.replicate ((n + 1 + 1) / 2) (symbolToken op) := by
    intro n
    induction n with
    | zero =>
      refine ⟨by simp [lex], ?_⟩
      have hd : ¬ ((op = 124 ∨ op = 38) ∧ ([] : List Nat).head? = some op) := by simp
      simpa using lex_cons_single hs hd
    | succ n ih =>
      refine ⟨ih.2, ?_⟩
      have e : (n + 1 + 1 + 1) / 2 = (n + 1) / 2 + 1 := by omega
      rw [List.replicate_succ, List.replicate_succ, lex_cons_double _ hs hop, ih.1, e,
        List.replicate_succ]
  exact fun n => (two n).1

/-! ## The claims -/

/-- C1: scanning `a+b^c!(d+e)` from cursor 0 by repeated calls of `getNextToken` yields
exactly ID(0), OR, ID(1), XOR, ID(2), NOT, BOPEN, ID(3), OR, ID(4), BCLOSE, END, each
with the character that triggered it; END is what the 12th call returns, and no token of
the sequence is NONE. -/
theorem scan_round_trip :
    scan (ofAscii "a+b^c!(d+e)") = .ok
      [⟨Token.ID, 'a'.toNat, 0⟩, ⟨Token.OR, '+'.toNat, 0⟩, ⟨Token.ID, 'b'.toNat, 1⟩,
       ⟨Token.XOR, '^'.toNat, 0⟩, ⟨Token.ID, 'c'.toNat, 2⟩, ⟨Token.NOT, '!'.toNat, 0⟩,
       ⟨Token.BOPEN, '('.toNat, 0⟩, ⟨Token.ID, 'd'.toNat, 3⟩, ⟨Token.OR, '+'.toNat, 0⟩,
       ⟨Token.ID, 'e'.toNat, 4⟩, ⟨Token.BCLOSE, ')'.toNat, 0⟩, ⟨Token.END, null_cchar, 0⟩]
    ∧ getNextTokenN 11 (Scanner.init (ofAscii "a+b^c!(d+e)"))
        = .ok (⟨Token.END, null_cchar, 0⟩, ⟨ofAscii "a+b^c!(d+e)", 11⟩)
    ∧ (∀ ts, scan (ofAscii "a+b^c!(d+e)") = .ok ts →
        ts.length = 12 ∧ ∀ t ∈ ts, t.token ≠ Token.NONE) := by
  have e1 : scan (ofAscii "a+b^c!(d+e)") = .ok
      [⟨Token.ID, 'a'.toNat, 0⟩, ⟨Token.OR, '+'.toNat, 0⟩, ⟨Token.ID, 'b'.toNat, 1⟩,
       ⟨Token.XOR, '^'.toNat, 0⟩, ⟨Token.ID, 'c'.toNat, 2⟩, ⟨Token.NOT, '!'.toNat, 0⟩,
       ⟨Token.BOPEN, '('.toNat, 0⟩, ⟨Token.ID, 'd'.toNat, 3⟩, ⟨Token.OR, '+'.toNat, 0⟩,
       ⟨Token.ID, 'e'.toNat, 4⟩, ⟨Token.BCLOSE, ')'.toNat, 0⟩, ⟨Token.END, null_cchar, 0⟩] := by
    decide
  refine ⟨e1, by decide, ?_⟩
  intro ts h
  rw [e1] at h
  injection h with h
  subst h
  decide

/-- C2: if the first non-whitespace character at or after the cursor is a lowercase letter
`c`, at index `p`, then `getNextToken` returns the token ID with source symbol `c` and
variable index `c - 'a'`, which lies in 0..25, and leaves the cursor at `p + 1`. -/
theorem getNextToken_lowercase (s : Scanner) (p c : Nat)
    (h : FirstNonSpace s.sourceCode s.currentElement p c) (hc : IsLowercase c) :
    getNextToken s = .ok (⟨Token.ID, c, c - 'a'.toNat⟩, ⟨s.sourceCode, p + 1⟩)
      ∧ c - 'a'.toNat ≤ 25 := by
  refine ⟨getNextToken_lower h hc, ?_⟩
  simp only [IsLowercase, Char.reduceToNat] at hc ⊢
  omega

theorem getNextToken_lowercase_witness :
    getNextToken ⟨ofAscii " \t q", 1⟩ = .ok (⟨Token.ID, 'q'.toNat, 16⟩, ⟨ofAscii " \t q", 4⟩)
      ∧ 'q'.toNat - 'a'.toNat ≤ 25 :=
  getNextToken_lowercase ⟨ofAscii " \t q", 1⟩ 3 'q'.toNat (by decide) (by decide)

/-- C3: if the first non-whitespace character at or after the cursor is an uppercase letter
`c`, at index `p`, then `getNextToken` returns the token ID with source symbol `c` and
variable index `26 + (c - 'A')`, which lies in 26..51, and leaves the cursor at `p + 1`. -/
theorem getNextToken_uppercase (s : Scanner) (p c : Nat)
    (h : FirstNonSpace s.sourceCode s.currentElement p c) (hc : IsUppercase c) :
    getNextToken s = .ok (⟨Token.ID, c, 26 + (c - 'A'.toNat)⟩, ⟨s.sourceCode, p + 1⟩)
      ∧ 26 ≤ 26 + (c - 'A'.toNat) ∧ 26 + (c - 'A'.toNat) ≤ 51 := by
  refine ⟨?_, by omega, ?_⟩
  · rw [getNextToken_upper h hc, Nat.add_comm 26]
    rfl
  · simp only [IsUppercase, Char.reduceToNat] at hc ⊢
    omega

theorem getNextToken_uppercase_witness :
    getNextToken ⟨ofAscii "a  Z+", 1⟩ = .ok (⟨Token.ID, 'Z'.toNat, 51⟩, ⟨ofAscii "a  Z+", 4⟩)
      ∧ 26 ≤ 26 + ('Z'.toNat - 'A'.toNat) ∧ 26 + ('Z'.toNat - 'A'.toNat) ≤ 51 :=
  getNextToken_uppercase ⟨ofAscii "a  Z+", 1⟩ 3 'Z'.toNat (by decide) (by decide)

/-- C4: if the first non-whitespace character at or after the cursor is one of the operator
and bracket characters, then `getNextToken` returns a token whose kind is fixed by that
character alone, whatever the rest of the source is: OR for `|` and `+`, XOR for `^`,
AND for `&` and `*`, NOT for `!` and `~`, BOPEN for `(`, BCLOSE for `)`. -/
theorem getNextToken_kind_of_operator (s : Scanner) (p c : Nat)
    (h : FirstNonSpace s.sourceCode s.currentElement p c) (hop : c ∈ ofAscii "|+^&*!~()") :
    ∃ t s1, getNextToken s = .ok (t, s1) ∧
      (c = '|'.toNat ∨ c = '+'.toNat → t.token = Token.OR) ∧
      (c = '^'.toNat → t.token = Token.XOR) ∧
      (c = '&'.toNat ∨ c = '*'.toNat → t.token = Token.AND) ∧
      (c = '!'.toNat ∨ c = '~'.toNat → t.token = Token.NOT) ∧
      (c = '('.toNat → t.token = Token.BOPEN) ∧
      (c = ')'.toNat → t.token = Token.BCLOSE) := by
  simp only [ofAscii, String.toList, List.map_cons, List.map_nil, Char.reduceToNat,
    List.mem_cons, List.mem_singleton, List.not_mem_nil, or_false] at hop
  rcases hop with rfl | rfl | rfl | rfl | rfl | rfl | rfl | rfl | rfl
  · exact ⟨_, _, getNextToken_operator (k := Token.OR) h (by decide), by decide⟩
  · exact ⟨_, _, getNextToken_operator (k := Token.OR) h (by decide), by decide⟩
  · exact ⟨_, _, getNextToken_operator (k := Token.XOR) h (by decide), by decide⟩
  · exact ⟨_, _, getNextToken_operator (k := Token.AND) h (by decide), by decide⟩
  · exact ⟨_, _, getNextToken_operator (k := Token.AND) h (by decide), by decide⟩
  · exact ⟨_, _, getNextToken_operator (k := Token.NOT) h (by decide), by decide⟩
  · exact ⟨_, _, getNextToken_operator (k := Token.NOT) h (by decide), by decide⟩
  · exact ⟨_, _, getNextToken_operator (k := Token.BOPEN) h (by decide), by decide⟩
  · exact ⟨_, _, getNextToken_operator (k := Token.BCLOSE) h (by decide), by decide⟩

theorem getNextToken_kind_of_operator_witness :
    ∃ t s1, getNextToken ⟨ofAscii "a &&b", 1⟩ = .ok (t, s1) ∧
      ('&'.toNat = '|'.toNat ∨ '&'.toNat = '+'.toNat → t.token = Token.OR) ∧
      ('&'.toNat = '^'.toNat → t.token = Token.XOR) ∧
      ('&'.toNat = '&'.toNat ∨ '&'.toNat = '*'.toNat → t.token = Token.AND) ∧
      ('&'.toNat = '!'.toNat ∨ '&'.toNat = '~'.toNat → t.token = Token.NOT) ∧
      ('&'.toNat = '('.toNat → t.token = Token.BOPEN) ∧
      ('&'.toNat = ')'.toNat → t.token = Token.BCLOSE) :=
  getNextToken_kind_of_operator ⟨ofAscii "a &&b", 1⟩ 2 '&'.toNat (by decide) (by decide)

/-- C5: a doubled operator is one token. If the first non-whitespace character at or after
the cursor is `|` or `&`, at index `p`, and the character at `p + 1` is the same, one call
of `getNextToken` returns one token, OR for `|` and AND for `&`, and leaves the cursor at
`p + 2`. Accordingly `||` scans to OR, END like `|`, and `&&` scans to AND, END like `&`. -/
theorem getNextToken_doubled (s : Scanner) (p c : Nat)
    (h : FirstNonSpace s.sourceCode s.currentElement p c)
    (hop : c = '|'.toNat ∨ c = '&'.toNat) (hd : s.sourceCode[p + 1]? = some c) :
    getNextToken s
        = .ok (⟨if c = '|'.toNat then Token.OR else Token.AND, c, 0⟩, ⟨s.sourceCode, p + 2⟩)
    ∧ scan (ofAscii "||")
        = .ok [⟨Token.OR, '|'.toNat, 0⟩, ⟨Token.END, null_cchar, 0⟩]
    ∧ scan (ofAscii "|") = scan (ofAscii "||")
    ∧ scan (ofAscii "&&")
        = .ok [⟨Token.AND, '&'.toNat, 0⟩, ⟨Token.END, null_cchar, 0⟩]
    ∧ scan (ofAscii "&") = scan (ofAscii "&&") := by
  refine ⟨?_, by decide, by decide, by decide, by decide⟩
  have hc : cursorAfter s.sourceCode p c = p + 2 := by
    unfold cursorAfter
    rw [if_pos ⟨hop, hd⟩]
  rcases hop with rfl | rfl
  · rw [getNextToken_operator (k := Token.OR) h (by decide), hc]; rfl
  · rw [getNextToken_operator (k := Token.AND) h (by decide), hc]; rfl

theorem getNextToken_doubled_witness :
    getNextToken ⟨ofAscii "a ||b", 1⟩
        = .ok (⟨if '|'.toNat = '|'.toNat then Token.OR else Token.AND, '|'.toNat, 0⟩,
            ⟨ofAscii "a ||b", 2 + 2⟩)
    ∧ scan (ofAscii "||")
        = .ok [⟨Token.OR, '|'.toNat, 0⟩, ⟨Token.END, null_cchar, 0⟩]
    ∧ scan (ofAscii "|") = scan (ofAscii "||")
    ∧ scan (ofAscii "&&")
        = .ok [⟨Token.AND, '&'.toNat, 0⟩, ⟨Token.END, null_cchar, 0⟩]
    ∧ scan (ofAscii "&") = scan (ofAscii "&&") :=
  getNextToken_doubled ⟨ofAscii "a ||b", 1⟩ 2 '|'.toNat (by decide) (by decide) (by decide)

/-- C6: whitespace inside a two-character operator splits it. For every non-empty run `w`
of whitespace characters, `|` followed by `w` and `|` scans to exactly OR, OR, END, and
`&` followed by `w` and `&` scans to exactly AND, AND, END. -/
theorem scan_split_by_whitespace (w : List Nat) (hne : w ≠ [])
    (hw : ∀ x ∈ w, isspace x = true) :
    scan ('|'.toNat :: (w ++ ['|'.toNat]))
        = .ok [⟨Token.OR, '|'.toNat, 0⟩, ⟨Token.OR, '|'.toNat, 0⟩,
            ⟨Token.END, null_cchar, 0⟩]
    ∧ scan ('&'.toNat :: (w ++ ['&'.toNat]))
        = .ok [⟨Token.AND, '&'.toNat, 0⟩, ⟨Token.AND, '&'.toNat, 0⟩,
            ⟨Token.END, null_cchar, 0⟩] :=
  ⟨scan_split_operator (Or.inl rfl) (by decide) w hne hw,
   scan_split_operator (Or.inr rfl) (by decide) w hne hw⟩

theorem scan_split_by_whitespace_witness :
    ofAscii "| |" = '|'.toNat :: ([' '.toNat] ++ ['|'.toNat])
    ∧ scan ('|'.toNat :: ([' '.toNat] ++ ['|'.toNat]))
        = .ok [⟨Token.OR, '|'.toNat, 0⟩, ⟨Token.OR, '|'.toNat, 0⟩,
            ⟨Token.END, null_cchar, 0⟩]
    ∧ scan ('&'.toNat :: ([' '.toNat] ++ ['&'.toNat]))
        = .ok [⟨Token.AND, '&'.toNat, 0⟩, ⟨Token.AND, '&'.toNat, 0⟩,
            ⟨Token.END, null_cchar, 0⟩] :=
  ⟨by decide, scan_split_by_whitespace [' '.toNat] (by decide) (by decide)⟩

/-- C7: `getNextToken` returns kind NONE exactly when there is a first non-whitespace
character at or after the cursor and it is neither an ASCII letter nor one of
`| + ^ & * ! ~ ( )`. In that case the token carries that character, and the cursor ends
one position past it: `3a` scans to NONE, ID(0), END. -/
theorem getNextToken_none_iff (s : Scanner) :
    ((∃ t s1, getNextToken s = .ok (t, s1) ∧ t.token = Token.NONE) ↔
      ∃ p c, FirstNonSpace s.sourceCode s.currentElement p c ∧
        ¬ IsLowercase c ∧ ¬ IsUppercase c ∧ c ∉ ofAscii "|+^&*!~()")
    ∧ (∀ t s1, getNextToken s = .ok (t, s1) → t.token = Token.NONE →
        ∃ p c, FirstNonSpace s.sourceCode s.currentElement p c ∧
          t = ⟨Token.NONE, c, 0⟩ ∧ s1 = ⟨s.sourceCode, p + 1⟩)
    ∧ scan (ofAscii "3a")
        = .ok [⟨Token.NONE, '3'.toNat, 0⟩, ⟨Token.ID, 'a'.toNat, 0⟩,
            ⟨Token.END, null_cchar, 0⟩] := by
  have key : ∀ t s1, getNextToken s = .ok (t, s1) → t.token = Token.NONE →
      ∃ p c, FirstNonSpace s.sourceCode s.currentElement p c ∧
        (¬ IsLowercase c ∧ ¬ IsUppercase c ∧ c ∉ ofAscii "|+^&*!~()") ∧
        t = ⟨Token.NONE, c, 0⟩ ∧ s1 = ⟨s.sourceCode, p + 1⟩ := by
    intro t s1 h ht
    rcases (getNextToken_ok_cases h).2 with ⟨_, rfl, _⟩ | ⟨p, c, hf, rfl, rfl⟩
    · exact absurd ht (by decide)
    · have hc := (symbolToken_none_iff c).mp ht
      have hk := (operatorKind_eq_none_iff c).mpr hc.2.2
      refine ⟨p, c, hf, hc, ?_, ?_⟩
      · simp only [symbolToken, if_neg hc.1, if_neg hc.2.1, hk]
      · rw [cursorAfter_other hk]
  refine ⟨⟨?_, ?_⟩, ?_, by decide⟩
  · rintro ⟨t, s1, h, ht⟩
    obtain ⟨p, c, hf, hc, _, _⟩ := key t s1 h ht
    exact ⟨p, c, hf, hc⟩
  · rintro ⟨p, c, hf, hl, hu, hop⟩
    exact ⟨_, _, getNextToken_other hf hl hu ((operatorKind_eq_none_iff c).mpr hop), rfl⟩
  · intro t s1 h ht
    obtain ⟨p, c, hf, _, h1, h2⟩ := key t s1 h ht
    exact ⟨p, c, hf, h1, h2⟩

theorem getNextToken_none_iff_witness :
    ∃ p c, FirstNonSpace (ofAscii " 3a") 0 p c ∧
      (⟨Token.NONE, '3'.toNat, 0⟩ : TokenWithAttribute) = ⟨Token.NONE, c, 0⟩ ∧
      (⟨ofAscii " 3a", 2⟩ : Scanner) = ⟨ofAscii " 3a", p + 1⟩ :=
  (getNextToken_none_iff ⟨ofAscii " 3a", 0⟩).2.1 ⟨Token.NONE, '3'.toNat, 0⟩
    ⟨ofAscii " 3a", 2⟩ (by decide) (by decide)

/-- C8: for a cursor inside the buffer, `getNextToken` returns kind END exactly when every
character from the cursor to the end of the buffer is whitespace, the empty remainder
included. The END token carries the sentinel `null_cchar` as source symbol and variable
index 0, and the cursor is then at the end of the buffer. For every source made of
whitespace characters only, and for the empty source, the first call returns END. -/
theorem getNextToken_end_iff (s : Scanner) (hle : s.currentElement ≤ s.sourceCode.length) :
    ((∃ t s1, getNextToken s = .ok (t, s1) ∧ t.token = Token.END) ↔
      AllSpaceFrom s.sourceCode s.currentElement)
    ∧ (∀ t s1, getNextToken s = .ok (t, s1) → t.token = Token.END →
        t = ⟨Token.END, null_cchar, 0⟩ ∧ s1 = ⟨s.sourceCode, s.sourceCode.length⟩)
    ∧ (∀ src : List Nat, (∀ c ∈ src, isspace c = true) →
        getNextToken (Scanner.init src)
          = .ok (⟨Token.END, null_cchar, 0⟩, ⟨src, src.length⟩))
    ∧ getNextToken (Scanner.init []) = .ok (⟨Token.END, null_cchar, 0⟩, ⟨[], 0⟩) := by
  have key : ∀ t s1, getNextToken s = .ok (t, s1) → t.token = Token.END →
      AllSpaceFrom s.sourceCode s.currentElement ∧
        t = ⟨Token.END, null_cchar, 0⟩ ∧ s1 = ⟨s.sourceCode, s.sourceCode.length⟩ := by
    intro t s1 h ht
    rcases (getNextToken_ok_cases h).2 with h1 | ⟨p, c, _, rfl, _⟩
    · exact h1
    · exact absurd ht (symbolToken_ne_end c)
  refine ⟨⟨?_, ?_⟩, ?_, ?_, by decide⟩
  · rintro ⟨t, s1, h, ht⟩
    exact (key t s1 h ht).1
  · intro hall
    exact ⟨_, _, getNextToken_allSpace hle hall, rfl⟩
  · intro t s1 h ht
    exact (key t s1 h ht).2
  · intro src hsrc
    refine getNextToken_allSpace (s := Scanner.init src) (Nat.zero_le _) ?_
    intro i hi _
    have hget : src[i]? = some (src[i]) := List.getElem?_eq_getElem hi
    have hsp : isspace (src[i]) = true := hsrc _ (List.getElem_mem _)
    simp [Scanner.init, spaceAt, hget, hsp]

theorem getNextToken_end_iff_witness :
    ((∃ t s1, getNextToken ⟨ofAscii "a \n ", 1⟩ = .ok (t, s1) ∧ t.token = Token.END) ↔
      AllSpaceFrom (ofAscii "a \n ") 1)
    ∧ AllSpaceFrom (ofAscii "a \n ") 1
    ∧ getNextToken ⟨ofAscii "a \n ", 1⟩
        = .ok (⟨Token.END, null_cchar, 0⟩, ⟨ofAscii "a \n ", 4⟩) :=
  ⟨(getNextToken_end_iff ⟨ofAscii "a \n ", 1⟩ (by decide)).1, by decide, by decide⟩

/-- C9: END is absorbing. If a call of `getNextToken` returns END, then every later call on
the resulting state returns the same END token and leaves the state unchanged, with the
cursor equal to the length of the buffer. -/
theorem getNextToken_end_absorbing (s s1 : Scanner) (t : TokenWithAttribute)
    (h : getNextToken s = .ok (t, s1)) (ht : t.token = Token.END) :
    s1.currentElement = s1.sourceCode.length ∧ s1.sourceCode = s.sourceCode ∧
      ∀ n, getNextTokenN n s1 = .ok (t, s1) := by
  rcases (getNextToken_ok_cases h).2 with ⟨_, rfl, rfl⟩ | ⟨p, c, _, rfl, _⟩
  · exact ⟨rfl, rfl, fun n => getNextTokenN_at_end s.sourceCode n⟩
  · exact absurd ht (symbolToken_ne_end c)

theorem getNextToken_end_absorbing_witness :
    (⟨ofAscii "ab  ", 4⟩ : Scanner).currentElement
        = (⟨ofAscii "ab  ", 4⟩ : Scanner).sourceCode.length
      ∧ (⟨ofAscii "ab  ", 4⟩ : Scanner).sourceCode = (⟨ofAscii "ab  ", 2⟩ : Scanner).sourceCode
      ∧ ∀ n, getNextTokenN n ⟨ofAscii "ab  ", 4⟩
          = .ok (⟨Token.END, null_cchar, 0⟩, ⟨ofAscii "ab  ", 4⟩) :=
  getNextToken_end_absorbing ⟨ofAscii "ab  ", 2⟩ ⟨ofAscii "ab  ", 4⟩
    ⟨Token.END, null_cchar, 0⟩ (by decide) (by decide)

/-- C10: monotonic progress. From every cursor inside the buffer a call of `getNextToken`
returns a token, the cursor after the call is not smaller than before, and it is strictly
greater whenever the token returned is not END. -/
theorem getNextToken_progress (s : Scanner) (hle : s.currentElement ≤ s.sourceCode.length) :
    ∃ t s1, getNextToken s = .ok (t, s1) ∧ s.currentElement ≤ s1.currentElement ∧
      (t.token ≠ Token.END → s.currentElement < s1.currentElement) := by
  rcases allSpace_or_first s.sourceCode s.currentElement with hall | ⟨p, c, hf⟩
  · exact ⟨_, _, getNextToken_allSpace hle hall, hle, fun hne => absurd rfl hne⟩
  · have hb := (cursorAfter_bounds s.sourceCode p c).1
    have hp := hf.1
    refine ⟨_, _, getNextToken_first hf, ?_, fun _ => ?_⟩
    · show s.currentElement ≤ cursorAfter s.sourceCode p c
      omega
    · show s.currentElement < cursorAfter s.sourceCode p c
      omega

theorem getNextToken_progress_witness :
    ∃ t s1, getNextToken ⟨ofAscii "a  ||b", 1⟩ = .ok (t, s1) ∧
      (⟨ofAscii "a  ||b", 1⟩ : Scanner).currentElement ≤ s1.currentElement ∧
      (t.token ≠ Token.END → (⟨ofAscii "a  ||b", 1⟩ : Scanner).currentElement
        < s1.currentElement) :=
  getNextToken_progress ⟨ofAscii "a  ||b", 1⟩ (by decide)

/-- C11: scanning to END terminates within a bound linear in the input. For every source
of length `n`, scanned from cursor 0, the loop that calls `getNextToken` until END returns
a result: at most `n` tokens that are not END, followed by END, so END comes with call
number `n + 1` at the latest. Allowing more than `n + 1` calls does not change the
result. -/
theorem scan_terminates (src : List Nat) :
    ∃ ts, scan src = .ok (ts ++ [⟨Token.END, null_cchar, 0⟩]) ∧
      ts.length ≤ src.length ∧ (∀ t ∈ ts, t.token ≠ Token.END) ∧
      (∀ fuel, src.length < fuel → scanTokens fuel (Scanner.init src) = scan src) ∧
      ∃ k, k ≤ src.length ∧ getNextTokenN k (Scanner.init src)
        = .ok (⟨Token.END, null_cchar, 0⟩, ⟨src, src.length⟩) := by
  refine ⟨lex src, scan_eq_lex src, lex_length_le src, fun t ht => lex_ne_end ht, ?_, ?_⟩
  · intro fuel hf
    rw [scan_eq_lex]
    have h := @scanTokens_eq_lex src fuel 0 (Nat.zero_le _) (by omega)
    simpa [Scanner.init] using h
  · exact getNextTokenN_reaches_end src.length 0 (Nat.zero_le _) (by omega)

theorem scan_terminates_witness :
    ∃ ts, scan (ofAscii "a || B") = .ok (ts ++ [⟨Token.END, null_cchar, 0⟩]) ∧
      ts.length ≤ (ofAscii "a || B").length ∧ (∀ t ∈ ts, t.token ≠ Token.END) ∧
      (∀ fuel, (ofAscii "a || B").length < fuel →
        scanTokens fuel (Scanner.init (ofAscii "a || B")) = scan (ofAscii "a || B")) ∧
      ∃ k, k ≤ (ofAscii "a || B").length ∧ getNextTokenN k (Scanner.init (ofAscii "a || B"))
        = .ok (⟨Token.END, null_cchar, 0⟩, ⟨ofAscii "a || B", (ofAscii "a || B").length⟩) :=
  scan_terminates (ofAscii "a || B")

/-- C12: exact consumption. For every call of `getNextToken` that does not return END, with
`p` the index of the first non-whitespace character at or after the cursor before the
call, the cursor after the call is `p + 2` when the characters at `p` and `p + 1` are both
`|` or both `&`, and `p + 1` in every other case. So `++` and `**` are two tokens each,
and `|&` is OR then AND. -/
theorem getNextToken_consumption (s s1 : Scanner) (t : TokenWithAttribute)
    (h : getNextToken s = .ok (t, s1)) (ht : t.token ≠ Token.END) :
    (∃ p c, FirstNonSpace s.sourceCode s.currentElement p c ∧
      s1.currentElement =
        if (c = '|'.toNat ∧ s.sourceCode[p + 1]? = some '|'.toNat) ∨
            (c = '&'.toNat ∧ s.sourceCode[p + 1]? = some '&'.toNat)
        then p + 2 else p + 1)
    ∧ scan (ofAscii "++") = .ok [⟨Token.OR, '+'.toNat, 0⟩, ⟨Token.OR, '+'.toNat, 0⟩,
        ⟨Token.END, null_cchar, 0⟩]
    ∧ scan (ofAscii "**") = .ok [⟨Token.AND, '*'.toNat, 0⟩, ⟨Token.AND, '*'.toNat, 0⟩,
        ⟨Token.END, null_cchar, 0⟩]
    ∧ scan (ofAscii "|&") = .ok [⟨Token.OR, '|'.toNat, 0⟩, ⟨Token.AND, '&'.toNat, 0⟩,
        ⟨Token.END, null_cchar, 0⟩] := by
  refine ⟨?_, by decide, by decide, by decide⟩
  obtain ⟨p, c, hf, _, rfl⟩ := getNextToken_not_end h ht
  refine ⟨p, c, hf, ?_⟩
  show cursorAfter s.sourceCode p c = _
  simp only [cursorAfter, Char.reduceToNat]
  by_cases h1 : c = 124
  · subst h1; simp
  · by_cases h2 : c = 38
    · subst h2; simp
    · simp [h1, h2]

theorem getNextToken_consumption_witness :
    (∃ p c, FirstNonSpace (ofAscii "a  &&b") 1 p c ∧
      (⟨ofAscii "a  &&b", 5⟩ : Scanner).currentElement =
        if (c = '|'.toNat ∧ (ofAscii "a  &&b")[p + 1]? = some '|'.toNat) ∨
            (c = '&'.toNat ∧ (ofAscii "a  &&b")[p + 1]? = some '&'.toNat)
        then p + 2 else p + 1)
    ∧ scan (ofAscii "++") = .ok [⟨Token.OR, '+'.toNat, 0⟩, ⟨Token.OR, '+'.toNat, 0⟩,
        ⟨Token.END, null_cchar, 0⟩]
    ∧ scan (ofAscii "**") = .ok [⟨Token.AND, '*'.toNat, 0⟩, ⟨Token.AND, '*'.toNat, 0⟩,
        ⟨Token.END, null_cchar, 0⟩]
    ∧ scan (ofAscii "|&") = .ok [⟨Token.OR, '|'.toNat, 0⟩, ⟨Token.AND, '&'.toNat, 0⟩,
        ⟨Token.END, null_cchar, 0⟩] :=
  getNextToken_consumption ⟨ofAscii "a  &&b", 1⟩ ⟨ofAscii "a  &&b", 5⟩
    ⟨Token.AND, '&'.toNat, 0⟩ (by decide) (by decide)

/-- C13: the scanner never makes an AND token out of adjacency. Every token of kind AND
that `getNextToken` returns, in any state and so in the scan of any input, has the source
symbol `&` or `*`. `ab` scans to exactly ID(0), ID(1), END, and `(a)(b)` to exactly
BOPEN, ID(0), BCLOSE, BOPEN, ID(1), BCLOSE, END. -/
theorem and_token_symbol (s s1 : Scanner) (t : TokenWithAttribute)
    (h : getNextToken s = .ok (t, s1)) (ht : t.token = Token.AND) :
    (t.inputTerminalSymbol = '&'.toNat ∨ t.inputTerminalSymbol = '*'.toNat)
    ∧ (∀ src ts, scan src = .ok ts → ∀ u ∈ ts, u.token = Token.AND →
        u.inputTerminalSymbol = '&'.toNat ∨ u.inputTerminalSymbol = '*'.toNat)
    ∧ scan (ofAscii "ab") = .ok [⟨Token.ID, 'a'.toNat, 0⟩, ⟨Token.ID, 'b'.toNat, 1⟩,
        ⟨Token.END, null_cchar, 0⟩]
    ∧ scan (ofAscii "(a)(b)") = .ok [⟨Token.BOPEN, '('.toNat, 0⟩, ⟨Token.ID, 'a'.toNat, 0⟩,
        ⟨Token.BCLOSE, ')'.toNat, 0⟩, ⟨Token.BOPEN, '('.toNat, 0⟩, ⟨Token.ID, 'b'.toNat, 1⟩,
        ⟨Token.BCLOSE, ')'.toNat, 0⟩, ⟨Token.END, null_cchar, 0⟩] := by
  refine ⟨?_, ?_, by decide, by decide⟩
  · rcases getNextToken_token h with rfl | ⟨c, rfl⟩
    · exact absurd ht (by decide)
    · rw [symbolToken_symbol]
      exact symbolToken_and ht
  · intro src ts hs u hu hand
    rw [scan_eq_lex] at hs
    injection hs with hs
    subst hs
    rcases List.mem_append.mp hu with hu1 | hu1
    · obtain ⟨c, _, _, rfl⟩ := lex_mem hu1
      rw [symbolToken_symbol]
      exact symbolToken_and hand
    · have hue : u = ⟨Token.END, null_cchar, 0⟩ := by simpa using hu1
      rw [hue] at hand
      exact absurd hand (by decide)

theorem and_token_symbol_witness :
    ('&'.toNat = '&'.toNat ∨ '&'.toNat = '*'.toNat)
    ∧ (∀ src ts, scan src = .ok ts → ∀ u ∈ ts, u.token = Token.AND →
        u.inputTerminalSymbol = '&'.toNat ∨ u.inputTerminalSymbol = '*'.toNat)
    ∧ scan (ofAscii "ab") = .ok [⟨Token.ID, 'a'.toNat, 0⟩, ⟨Token.ID, 'b'.toNat, 1⟩,
        ⟨Token.END, null_cchar, 0⟩]
    ∧ scan (ofAscii "(a)(b)") = .ok [⟨Token.BOPEN, '('.toNat, 0⟩, ⟨Token.ID, 'a'.toNat, 0⟩,
        ⟨Token.BCLOSE, ')'.toNat, 0⟩, ⟨Token.BOPEN, '('.toNat, 0⟩, ⟨Token.ID, 'b'.toNat, 1⟩,
        ⟨Token.BCLOSE, ')'.toNat, 0⟩, ⟨Token.END, null_cchar, 0⟩] :=
  and_token_symbol ⟨ofAscii "a&&b", 1⟩ ⟨ofAscii "a&&b", 3⟩ ⟨Token.AND, '&'.toNat, 0⟩
    (by decide) (by decide)

/-- C14: for every call of `getNextToken` that does not return END, the source symbol of
the token is the first non-whitespace character at or after the cursor before the call,
whatever the kind of the token; for a doubled operator it is the single character `|`
or `&`. -/
theorem getNextToken_source_symbol (s s1 : Scanner) (t : TokenWithAttribute)
    (h : getNextToken s = .ok (t, s1)) (ht : t.token ≠ Token.END) :
    (∃ p c, FirstNonSpace s.sourceCode s.currentElement p c ∧ t.inputTerminalSymbol = c)
    ∧ getNextToken (Scanner.init (ofAscii "||"))
        = .ok (⟨Token.OR, '|'.toNat, 0⟩, ⟨ofAscii "||", 2⟩)
    ∧ getNextToken (Scanner.init (ofAscii "&&"))
        = .ok (⟨Token.AND, '&'.toNat, 0⟩, ⟨ofAscii "&&", 2⟩) := by
  refine ⟨?_, by decide, by decide⟩
  obtain ⟨p, c, hf, rfl, _⟩ := getNextToken_not_end h ht
  exact ⟨p, c, hf, symbolToken_symbol c⟩

theorem getNextToken_source_symbol_witness :
    (∃ p c, FirstNonSpace (ofAscii "a  3") 1 p c ∧
      (⟨Token.NONE, '3'.toNat, 0⟩ : TokenWithAttribute).inputTerminalSymbol = c)
    ∧ getNextToken (Scanner.init (ofAscii "||"))
        = .ok (⟨Token.OR, '|'.toNat, 0⟩, ⟨ofAscii "||", 2⟩)
    ∧ getNextToken (Scanner.init (ofAscii "&&"))
        = .ok (⟨Token.AND, '&'.toNat, 0⟩, ⟨ofAscii "&&", 2⟩) :=
  getNextToken_source_symbol ⟨ofAscii "a  3", 1⟩ ⟨ofAscii "a  3", 4⟩
    ⟨Token.NONE, '3'.toNat, 0⟩ (by decide) (by decide)

/-- C15: negation is decodable from the index. For every token of kind ID that
`getNextToken` returns, the variable index is at least 26 exactly when the source symbol
is an uppercase letter; and then the index minus 26 is the variable index `getNextToken`
returns in any state whose first non-whitespace character is the corresponding lowercase
letter. `A` gives 26 and `a` gives 0. -/
theorem id_index_decodes_negation (s s1 : Scanner) (t : TokenWithAttribute)
    (h : getNextToken s = .ok (t, s1)) (ht : t.token = Token.ID) :
    (26 ≤ t.sourceIndex ↔ IsUppercase t.inputTerminalSymbol)
    ∧ (IsUppercase t.inputTerminalSymbol →
        ∀ (s2 : Scanner) (p : Nat),
          FirstNonSpace s2.sourceCode s2.currentElement p
            (t.inputTerminalSymbol - 'A'.toNat + 'a'.toNat) →
          getNextToken s2
            = .ok (⟨Token.ID, t.inputTerminalSymbol - 'A'.toNat + 'a'.toNat,
                t.sourceIndex - 26⟩, ⟨s2.sourceCode, p + 1⟩))
    ∧ getNextToken (Scanner.init (ofAscii "A"))
        = .ok (⟨Token.ID, 'A'.toNat, 26⟩, ⟨ofAscii "A", 1⟩)
    ∧ getNextToken (Scanner.init (ofAscii "a"))
        = .ok (⟨Token.ID, 'a'.toNat, 0⟩, ⟨ofAscii "a", 1⟩) := by
  refine ⟨?_, ?_, by decide, by decide⟩
  · rcases getNextToken_token h with rfl | ⟨c, rfl⟩
    · exact absurd ht (by decide)
    · rw [symbolToken_symbol]
      rcases symbolToken_id ht with ⟨hl, hi⟩ | ⟨hu, hi⟩
      · rw [hi]
        simp only [IsLowercase, IsUppercase, Char.reduceToNat] at hl ⊢
        omega
      · rw [hi]
        exact ⟨fun _ => hu, fun _ => by omega⟩
  · rcases getNextToken_token h with rfl | ⟨c, rfl⟩
    · exact absurd ht (by decide)
    · rw [symbolToken_symbol]
      intro hu s2 p hf
      have hlow : IsLowercase (c - 'A'.toNat + 'a'.toNat) := by
        simp only [IsLowercase, IsUppercase, Char.reduceToNat] at hu ⊢
        omega
      rw [getNextToken_lower hf hlow]
      rcases symbolToken_id ht with ⟨hl, hi⟩ | ⟨_, hi⟩
      · simp only [IsLowercase, IsUppercase, Char.reduceToNat] at hl hu
        omega
      · rw [hi]
        simp only [IsUppercase, Char.reduceToNat] at hu ⊢
        have e1 : c - 65 + 97 - 97 = 26 + (c - 65) - 26 := by omega
        rw [e1]

theorem id_index_decodes_negation_witness :
    (26 ≤ (⟨Token.ID, 'C'.toNat, 28⟩ : TokenWithAttribute).sourceIndex ↔
      IsUppercase (⟨Token.ID, 'C'.toNat, 28⟩ : TokenWithAttribute).inputTerminalSymbol)
    ∧ (IsUppercase (⟨Token.ID, 'C'.toNat, 28⟩ : TokenWithAttribute).inputTerminalSymbol →
        ∀ (s2 : Scanner) (p : Nat),
          FirstNonSpace s2.sourceCode s2.currentElement p
            ((⟨Token.ID, 'C'.toNat, 28⟩ : TokenWithAttribute).inputTerminalSymbol
              - 'A'.toNat + 'a'.toNat) →
          getNextToken s2
            = .ok (⟨Token.ID, (⟨Token.ID, 'C'.toNat, 28⟩ : TokenWithAttribute).inputTerminalSymbol
                - 'A'.toNat + 'a'.toNat,
                (⟨Token.ID, 'C'.toNat, 28⟩ : TokenWithAttribute).sourceIndex - 26⟩,
                ⟨s2.sourceCode, p + 1⟩))
    ∧ getNextToken (Scanner.init (ofAscii "A"))
        = .ok (⟨Token.ID, 'A'.toNat, 26⟩, ⟨ofAscii "A", 1⟩)
    ∧ getNextToken (Scanner.init (ofAscii "a"))
        = .ok (⟨Token.ID, 'a'.toNat, 0⟩, ⟨ofAscii "a", 1⟩) :=
  id_index_decodes_negation ⟨ofAscii "b C", 1⟩ ⟨ofAscii "b C", 3⟩ ⟨Token.ID, 'C'.toNat, 28⟩
    (by decide) (by decide)

/-- C16: every token that `getNextToken` returns with a kind other than ID, which is one of
END, NONE, OR, XOR, AND, NOT, BOPEN, BCLOSE, has variable index 0. -/
theorem non_id_index_zero (s s1 : Scanner) (t : TokenWithAttribute)
    (h : getNextToken s = .ok (t, s1)) (ht : t.token ≠ Token.ID) :
    t.sourceIndex = 0 := by
  rcases getNextToken_token h with rfl | ⟨c, rfl⟩
  · rfl
  · exact symbolToken_index_zero ht

theorem non_id_index_zero_witness :
    (⟨Token.XOR, '^'.toNat, 0⟩ : TokenWithAttribute).sourceIndex = 0 :=
  non_id_index_zero ⟨ofAscii "a ^b", 1⟩ ⟨ofAscii "a ^b", 3⟩ ⟨Token.XOR, '^'.toNat, 0⟩
    (by decide) (by decide)

/-- C17: whitespace between tokens is transparent. For every input in which no `|` is
followed by one or more whitespace characters and then another `|`, and no `&` by one or
more whitespace characters and then another `&`, scanning returns the same token sequence,
with the kind, source symbol and variable index of every token up to END, as scanning the
input with all whitespace characters removed. -/
theorem scan_removeWhiteSpace (src : List Nat) (h : ¬ SplitOperator src) :
    scan (removeWhiteSpace src) = scan src ∧ ∃ ts, scan src = .ok ts := by
  refine ⟨?_, _, scan_eq_lex src⟩
  rw [scan_eq_lex, scan_eq_lex, lex_removeWhiteSpace h]

theorem scan_removeWhiteSpace_witness :
    removeWhiteSpace (ofAscii " a || B\t&( c)") = ofAscii "a||B&(c)"
    ∧ scan (removeWhiteSpace (ofAscii " a || B\t&( c)")) = scan (ofAscii " a || B\t&( c)")
    ∧ ∃ ts, scan (ofAscii " a || B\t&( c)") = .ok ts :=
  ⟨by decide, scan_removeWhiteSpace (ofAscii " a || B\t&( c)")
    (fun h => absurd (hasSplit_of_splitOperator h) (by decide))⟩

/-- C18: the cursor never leaves the buffer. For every source and every number of calls of
`getNextToken` from cursor 0, each call returns a token and the cursor after it is at most
the length of the source; no call ends in the out-of-bounds result, so every character read
is inside the buffer. The look-ahead after a `|` or `&` inside the buffer is never an
out-of-bounds read either, also when that character is the last one. -/
theorem cursor_in_buffer (src : List Nat) (n : Nat) :
    (∃ t s1, getNextTokenN n (Scanner.init src) = .ok (t, s1) ∧ s1.sourceCode = src ∧
      s1.currentElement ≤ src.length)
    ∧ getNextTokenN n (Scanner.init src) ≠ .error .outOfBounds
    ∧ (∀ p op, p < src.length → ∃ q, doubleOperator src p op = .ok q ∧ q < src.length)
    ∧ scan (ofAscii "a|") = .ok [⟨Token.ID, 'a'.toNat, 0⟩, ⟨Token.OR, '|'.toNat, 0⟩,
        ⟨Token.END, null_cchar, 0⟩]
    ∧ scan (ofAscii "b&") = .ok [⟨Token.ID, 'b'.toNat, 1⟩, ⟨Token.AND, '&'.toNat, 0⟩,
        ⟨Token.END, null_cchar, 0⟩] := by
  have h := getNextTokenN_in_buffer n (Scanner.init src) (Nat.zero_le _)
  refine ⟨h, ?_, ?_, by decide, by decide⟩
  · obtain ⟨t, s1, h1, _, _⟩ := h
    rw [h1]
    exact fun e => Except.noConfusion e
  · intro p op hp
    refine ⟨_, doubleOperator_eq hp op, ?_⟩
    split_ifs with hd
    · exact (List.getElem?_eq_some_iff.mp hd).1
    · exact hp

theorem cursor_in_buffer_witness :
    (∃ t s1, getNextTokenN 3 (Scanner.init (ofAscii "a |")) = .ok (t, s1) ∧
      s1.sourceCode = ofAscii "a |" ∧ s1.currentElement ≤ (ofAscii "a |").length)
    ∧ getNextTokenN 3 (Scanner.init (ofAscii "a |")) ≠ .error .outOfBounds :=
  ⟨(cursor_in_buffer (ofAscii "a |") 3).1, (cursor_in_buffer (ofAscii "a |") 3).2.1⟩

/-- C19: tokenisation is compositional across whitespace. With `tokens x` the list of
tokens returned before END when `x` is scanned from cursor 0, for all sources `s` and `t`
and every non-empty run `w` of whitespace characters, the tokens of `s ++ w ++ t` are the
tokens of `s` followed by the tokens of `t`. -/
theorem tokens_append_whitespace (s t w : List Nat) (hne : w ≠ [])
    (hw : ∀ x ∈ w, isspace x = true) :
    ∃ a b, tokens s = .ok a ∧ tokens t = .ok b ∧ tokens (s ++ w ++ t) = .ok (a ++ b) := by
  refine ⟨lex s, lex t, tokens_eq_lex s, tokens_eq_lex t, ?_⟩
  rw [tokens_eq_lex, lex_append_whitespace s t hne hw]

theorem tokens_append_whitespace_witness :
    ∃ a b, tokens (ofAscii "a|") = .ok a ∧ tokens (ofAscii "|b") = .ok b ∧
      tokens (ofAscii "a|" ++ ofAscii " \n" ++ ofAscii "|b") = .ok (a ++ b) :=
  tokens_append_whitespace (ofAscii "a|") (ofAscii "|b") (ofAscii " \n") (by decide)
    (by decide)

/-- C20: doubled operators are paired greedily from the left. For every `n`, the input of
`n` consecutive `|` scans to exactly `(n + 1) / 2` OR tokens, the number `n / 2` rounded
up, followed by END, and the input of `n` consecutive `&` to as many AND tokens followed by
END; `|||` gives OR, OR, END. -/
theorem scan_operator_run (n : Nat) :
    scan (List.replicate n '|'.toNat)
        = .ok (List.replicate ((n + 1) / 2) ⟨Token.OR, '|'.toNat, 0⟩
            ++ [⟨Token.END, null_cchar, 0⟩])
    ∧ scan (List.replicate n '&'.toNat)
        = .ok (List.replicate ((n + 1) / 2) ⟨Token.AND, '&'.toNat, 0⟩
            ++ [⟨Token.END, null_cchar, 0⟩])
    ∧ scan (ofAscii "|||") = .ok [⟨Token.OR, '|'.toNat, 0⟩, ⟨Token.OR, '|'.toNat, 0⟩,
        ⟨Token.END, null_cchar, 0⟩] := by
  refine ⟨?_, ?_, by decide⟩
  · rw [scan_eq_lex]
    simp only [Char.reduceToNat]
    rw [lex_replicate (Or.inl rfl)]
    rfl
  · rw [scan_eq_lex]
    simp only [Char.reduceToNat]
    rw [lex_replicate (Or.inr rfl)]
    rfl

theorem scan_operator_run_witness :
    scan (List.replicate 5 '|'.toNat)
        = .ok (List.replicate ((5 + 1) / 2) ⟨Token.OR, '|'.toNat, 0⟩
            ++ [⟨Token.END, null_cchar, 0⟩])
    ∧ scan (List.replicate 5 '&'.toNat)
        = .ok (List.replicate ((5 + 1) / 2) ⟨Token.AND, '&'.toNat, 0⟩
            ++ [⟨Token.END, null_cchar, 0⟩])
    ∧ scan (ofAscii "|||") = .ok [⟨Token.OR, '|'.toNat, 0⟩, ⟨Token.OR, '|'.toNat, 0⟩,
        ⟨Token.END, null_cchar, 0⟩] :=
  scan_operator_run 5

end MCDC
